import Mathlib

/-!
Verification development for the bidirectional manifest synchronization
engine of node-red-src-editor.

The TypeScript source (src/watcher.ts, src/src2flows.ts, src/types.ts,
src/api.ts) is embedded shallowly:

* JavaScript `Map` objects and plain objects used as id-keyed records are
  modelled as association lists with JS semantics (set replaces an
  existing key in place, otherwise appends; `Object.values` iterates in
  insertion order).
* The filesystem is a flat map from path strings to file records carrying
  content and an mtime, plus a list of directory paths; `mtimeMs` is
  modelled by a strictly increasing logical clock bumped on every write.
* Node's `path.join` is modelled as '/'-separated concatenation of the
  non-empty components (the source never feeds it components needing
  further normalisation); `path.basename` takes the suffix after the last
  '/', and `path.extname` returns the suffix of the basename from its
  last dot (empty when the basename has no dot or only a leading dot),
  exactly as Node does on the inputs that occur here.
* Asynchronous handlers (the chokidar change handler and the websocket
  notification handler in `main`) are modelled as pure transition
  functions from the coordinator state to a new state plus a list of
  emitted effects, with the network call outcomes passed in as oracles.
-/

/-! ### String and path utilities -/

/-- Decimal rendering of a natural number, digit by digit (least digit
pushed first onto `acc`), structurally recursive on a fuel argument so
that the kernel can evaluate it; `natToChars` supplies fuel `n`, which is
at least the digit count, so the fuel-0 fallback (emitting the remaining
single digit) is only reached when `n < 10`. -/
def natToCharsAux : Nat → Nat → List Char → List Char
  | 0, n, acc => Char.ofNat (48 + n % 10) :: acc
  | fuel + 1, n, acc =>
    let d := Char.ofNat (48 + n % 10)
    if n < 10 then d :: acc else natToCharsAux fuel (n / 10) (d :: acc)

/-- Decimal rendering, as JS template interpolation of a number produces
(agrees with `Nat.repr`). -/
def natToChars (n : Nat) (acc : List Char) : List Char :=
  natToCharsAux n n acc

def natToString (n : Nat) : String :=
  String.mk (natToChars n [])

/-- `name.replace(/[\/\\]/g, '-')` from sanitizeName: every path separator
character is replaced by a dash. -/
def replaceSeps (s : String) : String :=
  String.mk (s.data.map (fun c => if c = '/' ∨ c = '\\' then '-' else c))

/-- The whitespace class of `String.prototype.trim` restricted to the
characters that occur in code/text fields. -/
def isWS (c : Char) : Bool := c = ' ' ∨ c = '\t' ∨ c = '\n' ∨ c = '\r'

/-- `s.trim()`: strip leading and trailing whitespace. -/
def strTrim (s : String) : String :=
  String.mk (((s.data.dropWhile isWS).reverse.dropWhile isWS).reverse)

/-- `path.join(a, b)` on the component shapes the source produces. -/
def pathJoin2 (a b : String) : String :=
  if a = "" then (if b = "" then "." else b)
  else if b = "" then a
  else a ++ "/" ++ b

/-- `path.join(a, b, c)` with `a` non-empty, as used for file paths. -/
def pathJoin3 (a b c : String) : String :=
  pathJoin2 (pathJoin2 a b) c

/-- `path.basename`: the part after the last '/'. -/
def basename (s : String) : String :=
  String.mk ((s.data.reverse.takeWhile (fun c => c ≠ '/')).reverse)

/-- `path.extname`: extension of the basename from its last dot, including
the dot; `""` when the basename has no dot, or its only dot is the
leading character. -/
def extname (s : String) : String :=
  let cs := (basename s).data
  let tail := cs.reverse.takeWhile (fun c => c ≠ '.')
  if tail.length + 1 < cs.length then String.mk ('.' :: tail.reverse)
  else ""

/-! ### JS Map / object model: association lists -/

/-- `obj[k]` for an id-keyed record, and `map.get k`. -/
def objGet {α : Type} (m : List (String × α)) (k : String) : Option α :=
  (m.find? (fun p => p.1 = k)).map (fun p => p.2)

/-- `obj[k] = v` and `map.set k v`: replace in place if the key exists,
else append. -/
def objSet {α : Type} (m : List (String × α)) (k : String) (v : α) : List (String × α) :=
  if m.any (fun p => p.1 = k) then
    m.map (fun p => if p.1 = k then (k, v) else p)
  else m ++ [(k, v)]

/-- `map.get k` on the name-counter map. -/
def mget (m : List (String × Nat)) (k : String) : Option Nat := objGet m k

/-- `map.set k v` on the name-counter map. -/
def mset (m : List (String × Nat)) (k : String) (v : Nat) : List (String × Nat) :=
  objSet m k v

/-- `Object.values(obj)` in insertion order. -/
def objValues {α : Type} (m : List (String × α)) : List α :=
  m.map (fun p => p.2)

/-! ### Data model (src/types.ts) -/

/-- The five recognised role tags of `flowFilesProperties`
('func' | 'format' | 'initialize' | 'finalize' | 'info'). -/
inductive Role : Type
  | rfunc
  | rformat
  | rini
  | rfin
  | rinfo
deriving DecidableEq, Repr

/-- `flowFilesProperties`: role tag paired with its file extension, in
source order. -/
def flowFilesProperties : List (Role × String) :=
  [(Role.rfunc, ".js"), (Role.rformat, ".vue"), (Role.rini, ".initialize.js"),
   (Role.rfin, ".finalize.js"), (Role.rinfo, ".info.md")]

/-- A flow item as in `FlowItem` of types.ts.  The role fields
func/format/initialize/finalize/info are optional strings; the
'initialize' and 'finalize' fields are named ini/fin here. -/
structure FlowItem : Type where
  id : String
  type : String
  label : String
  name : String
  z : Option String
  func : Option String
  format : Option String
  ini : Option String
  fin : Option String
  info : Option String
deriving DecidableEq, Repr

/-- `flowItem[fileProperty.type]` -/
def getRole (it : FlowItem) : Role → Option String
  | Role.rfunc => it.func
  | Role.rformat => it.format
  | Role.rini => it.ini
  | Role.rfin => it.fin
  | Role.rinfo => it.info

/-- `flowItem[manifestFile.type] = content` -/
def setRole (it : FlowItem) (r : Role) (v : String) : FlowItem :=
  match r with
  | Role.rfunc => { it with func := some v }
  | Role.rformat => { it with format := some v }
  | Role.rini => { it with ini := some v }
  | Role.rfin => { it with fin := some v }
  | Role.rinfo => { it with info := some v }

/-- `flowFolderProperties[flowItem.type]` followed by the field read
`flowItem[folderProperty.name]`: tabs use `label`, subflows use `name`;
other types yield none. -/
def folderNameField (it : FlowItem) : Option String :=
  if it.type = "tab" then some it.label
  else if it.type = "subflow" then some it.name
  else none

/-- `supportedFlowFileTypes` -/
def supportedFlowFileTypes : List String := ["function", "ui-template"]

structure ManifestFolder : Type where
  id : String
  type : String
  name : String
  folderName : String
deriving DecidableEq, Repr

structure ManifestFile : Type where
  type : Role
  name : String
  content : String
  modifiedTime : Option Nat
deriving DecidableEq, Repr

structure ManifestItem : Type where
  id : String
  type : String
  name : String
  folderName : String
  baseFileName : String
  files : List ManifestFile
deriving DecidableEq, Repr

structure Manifest : Type where
  folders : List (String × ManifestFolder)
  files : List (String × ManifestItem)
deriving DecidableEq, Repr

def emptyManifest : Manifest := { folders := [], files := [] }

/-! ### sanitizeName (src/watcher.ts lines 161-177) -/

/-- `sanitizeName(name, folderName, existingFileNames)`: strips path
separators to dashes, then disambiguates by the scoped key
`path.join(folderName, name)` held in the mutable counter map; returns
the resolved name and the updated map.  The count test mirrors JS
truthiness (`if (existingFilesCount)`). -/
def sanitizeName (name folderName : String) (m : List (String × Nat)) :
    String × List (String × Nat) :=
  let name' := replaceSeps name
  let filePath := pathJoin2 folderName name'
  let existingFilesCount := (mget m filePath).getD 0
  if existingFilesCount ≠ 0 then
    (name' ++ " (" ++ natToString existingFilesCount ++ ")",
     mset m filePath (existingFilesCount + 1))
  else
    (name', mset m filePath 1)

/-! ### flows2Manifest (src/watcher.ts lines 179-230) -/

/-- One step of the folder pass of `flows2Manifest`. -/
def foldersStep (acc : List (String × ManifestFolder) × List (String × Nat))
    (it : FlowItem) : List (String × ManifestFolder) × List (String × Nat) :=
  match folderNameField it with
  | none => acc
  | some nm =>
    if nm = "" then acc
    else
      let r := sanitizeName nm "" acc.2
      (objSet acc.1 it.id
        { id := it.id, type := it.type, name := nm, folderName := r.1 }, r.2)

/-- The file list built for one flow item: one `ManifestFile` per role
field whose content is a non-empty, non-whitespace string. -/
def itemFiles (it : FlowItem) (baseFileName : String) : List ManifestFile :=
  flowFilesProperties.foldl
    (fun fs p =>
      match getRole it p.1 with
      | none => fs
      | some content =>
        if content ≠ "" ∧ strTrim content ≠ "" then
          fs ++ [{ type := p.1, name := baseFileName ++ p.2,
                   content := content, modifiedTime := none }]
        else fs) []

/-- One step of the file pass of `flows2Manifest`. -/
def filesStep (folders : List (String × ManifestFolder))
    (acc : List (String × ManifestItem) × List (String × Nat))
    (it : FlowItem) : List (String × ManifestItem) × List (String × Nat) :=
  if supportedFlowFileTypes.contains it.type then
    let folder := match it.z with
      | none => none
      | some z => if z = "" then none else objGet folders z
    let folderName := match folder with
      | none => "default"
      | some f => if f.folderName = "" then "default" else f.folderName
    let r := sanitizeName it.name folderName acc.2
    let files := itemFiles it r.1
    if files ≠ [] then
      (objSet acc.1 it.id
        { id := it.id, type := it.type, name := it.name,
          folderName := folderName, baseFileName := r.1, files := files }, r.2)
    else (acc.1, r.2)
  else acc

/-- `flows2Manifest(flows)`: builds folders from tabs/subflows, then items
from functions/ui-templates, threading the shared name-counter map that
is seeded with the key 'default'. -/
def flows2Manifest (flows : List FlowItem) : Manifest :=
  let seeded : List (String × Nat) := [("default", 1)]
  let fo := flows.foldl foldersStep ([], seeded)
  let fi := flows.foldl (filesStep fo.1) ([], fo.2)
  { folders := fo.1, files := fi.1 }

/-! ### Filesystem model -/

structure FsFile : Type where
  content : String
  mtime : Nat
deriving DecidableEq, Repr

/-- A flat filesystem: file paths to contents/mtimes, a list of directory
paths, and a strictly increasing write clock standing in for `mtimeMs`. -/
structure FS : Type where
  files : List (String × FsFile)
  dirs : List String
  clock : Nat
deriving DecidableEq, Repr

def fsIsFile (fs : FS) (p : String) : Bool := fs.files.any (fun q => q.1 = p)

def fsIsDir (fs : FS) (p : String) : Bool := fs.dirs.contains p

/-- `fs.existsSync` is true for files and directories alike. -/
def fsExists (fs : FS) (p : String) : Bool := fsIsFile fs p || fsIsDir fs p

/-- `fs.statSync(p).mtimeMs` for an existing file. -/
def fsStatM (fs : FS) (p : String) : Nat :=
  ((objGet fs.files p).map (fun f => f.mtime)).getD 0

/-- `fs.readFileSync(p, 'utf8')` for an existing file. -/
def fsRead (fs : FS) (p : String) : Option String :=
  (objGet fs.files p).map (fun f => f.content)

/-- `fs.writeFileSync(p, content, 'utf8')`: the new mtime is the current
clock value. This models the success path only: the real call throws
ENOENT when the parent directory of `p` does not exist, so a theorem
quantifying over write traces is faithful only under a hypothesis that
every written path's parent directory exists at write time (dirs are
never removed in these passes, so existing anywhere before the write
suffices); see the folder-resolution hypothesis of the round-trip
theorem. -/
def fsWrite (fs : FS) (p : String) (content : String) : FS :=
  { files := objSet fs.files p { content := content, mtime := fs.clock },
    dirs := fs.dirs, clock := fs.clock + 1 }

/-- `fs.mkdirSync(p, { recursive: true })` -/
def fsMkdir (fs : FS) (p : String) : FS :=
  { fs with dirs := if fs.dirs.contains p then fs.dirs else fs.dirs ++ [p] }

/-- `fs.unlinkSync(p)` -/
def fsUnlink (fs : FS) (p : String) : FS :=
  { fs with files := fs.files.filter (fun q => ¬ q.1 = p) }

/-- The entry name when `p` is an immediate child of directory `d`
(`p` extends `d ++ "/"` and the remainder has no further separator). -/
def childName (d p : String) : Option String :=
  if p.data.take (d.data.length + 1) = d.data ++ ['/'] then
    let rest := p.data.drop (d.data.length + 1)
    if rest ≠ [] ∧ rest.contains '/' = false then some (String.mk rest) else none
  else none

/-- `fs.readdirSync(d)`: names of the immediate children of `d`. -/
def fsReaddir (fs : FS) (d : String) : List String :=
  fs.dirs.filterMap (childName d) ++ (fs.files.map (fun q => q.1)).filterMap (childName d)

/-! ### applyManifest (src/watcher.ts lines 232-310) -/

/-- The fixed managed-extension list of the deletion sweep, exactly as in
the source: `['vue', 'js', 'md']`. -/
def sweepExtensions : List String := ["vue", "js", "md"]

/-- One directory entry of the sweep's inner for-loop: descend into
directories, delete regular files whose `path.extname` is in the managed
list and whose path is not in the path→id map. -/
def sweepEntry (filesMap : List (String × String)) (fullPath : String)
    (acc : List String × FS × Nat) (file : String) : List String × FS × Nat :=
  let filePath := pathJoin2 fullPath file
  if fsIsDir acc.2.1 filePath then (acc.1 ++ [filePath], acc.2.1, acc.2.2)
  else if fsIsFile acc.2.1 filePath ∧ sweepExtensions.contains (extname file)
      ∧ filesMap.any (fun q => q.1 = filePath) = false then
    (acc.1, fsUnlink acc.2.1 filePath, acc.2.2 + 1)
  else acc

/-- The sweep's while-loop over the folder stack, with explicit fuel (one
unit per popped directory; `applyManifest` passes enough for every
directory of the filesystem). -/
def sweepRun (filesMap : List (String × String)) :
    Nat → List String → FS → Nat → FS × Nat
  | 0, _, fs, del => (fs, del)
  | fuel + 1, stack, fs, del =>
    match stack with
    | [] => (fs, del)
    | fullPath :: rest =>
      let names := fsReaddir fs fullPath
      let r := names.foldl (sweepEntry filesMap fullPath) ([], fs, del)
      sweepRun filesMap fuel (r.1 ++ rest) r.2.1 r.2.2

/-- Folder pass of `applyManifest`: ensure each manifest folder's
directory exists, counting creations. -/
def applyFolderStep (sourcePath : String) (acc : FS × Nat)
    (folder : ManifestFolder) : FS × Nat :=
  let folderPath := pathJoin2 sourcePath folder.folderName
  if fsExists acc.1 folderPath then acc
  else (fsMkdir acc.1 folderPath, acc.2 + 1)

/-- Mutable state threaded through the file pass of `applyManifest`. -/
structure ApplyState : Type where
  fs : FS
  filesMap : List (String × String)
  filesCreated : Nat
  filesUpdated : Nat
deriving DecidableEq, Repr

/-- The body of the inner file loop of `applyManifest`: create a missing
file; overwrite an existing one when there is no previous record for the
(document id, role) or its recorded mtime differs from the on-disk mtime;
otherwise leave it untouched.  Always records path→id in the map, and
returns the `ManifestFile` with its (possibly bumped) recorded mtime. -/
def applyFileStep (sourcePath : String) (item : ManifestItem)
    (existingItem : Option ManifestItem)
    (acc : ApplyState × List ManifestFile) (mf : ManifestFile) :
    ApplyState × List ManifestFile :=
  let st := acc.1
  let existingFile : Option ManifestFile := match existingItem with
    | none => none
    | some ei => ei.files.find? (fun f => f.type = mf.type)
  let filePath := pathJoin3 sourcePath item.folderName mf.name
  let needsWrite : Bool := match existingFile with
    | none => true
    | some ef => decide (ef.modifiedTime ≠ some (fsStatM st.fs filePath))
  let r :=
    if fsExists st.fs filePath = false then
      let fs' := fsWrite st.fs filePath mf.content
      ({ st with fs := fs', filesCreated := st.filesCreated + 1 },
       { mf with modifiedTime := some (fsStatM fs' filePath) })
    else if needsWrite then
      let fs' := fsWrite st.fs filePath mf.content
      ({ st with fs := fs', filesUpdated := st.filesUpdated + 1 },
       { mf with modifiedTime := some (fsStatM fs' filePath) })
    else (st, mf)
  ({ r.1 with filesMap := objSet r.1.filesMap filePath item.id },
   acc.2 ++ [r.2])

/-- The body of the outer item loop of `applyManifest`: looks up the
previous record by document id and runs the file loop. -/
def applyItemStep (sourcePath : String)
    (existingFiles : List (String × ManifestItem))
    (acc : ApplyState × List (String × ManifestItem))
    (entry : String × ManifestItem) :
    ApplyState × List (String × ManifestItem) :=
  let item := entry.2
  let existingItem := objGet existingFiles item.id
  let r := item.files.foldl (applyFileStep sourcePath item existingItem) (acc.1, [])
  (r.1, acc.2 ++ [(entry.1, { item with files := r.2 })])

structure Stats : Type where
  foldersCreated : Nat
  foldersDeleted : Nat
  filesCreated : Nat
  filesUpdated : Nat
  filesDeleted : Nat
  totalModified : Nat
deriving DecidableEq, Repr

/-- `applyManifest(manifest, existingManifest, sourcePath)` over the
filesystem model.  The source mutates `manifest` (recorded mtimes) and
returns `{stats, files}`; the model returns the updated filesystem, the
updated manifest, the stats and the path→id map.  (The source throws when
`sourcePath` is empty; the model is only invoked with non-empty paths.) -/
def applyManifest (manifest existingManifest : Manifest) (sourcePath : String)
    (fs0 : FS) : FS × Manifest × Stats × List (String × String) :=
  let fs1 := if fsExists fs0 sourcePath then fs0 else fsMkdir fs0 sourcePath
  let fo := (objValues manifest.folders).foldl (applyFolderStep sourcePath) (fs1, 0)
  let init : ApplyState :=
    { fs := fo.1, filesMap := [], filesCreated := 0, filesUpdated := 0 }
  let fi := manifest.files.foldl (applyItemStep sourcePath existingManifest.files) (init, [])
  let st := fi.1
  let sw := sweepRun st.filesMap (st.fs.dirs.length + 1) [sourcePath] st.fs 0
  (sw.1,
   { manifest with files := fi.2 },
   { foldersCreated := fo.2, foldersDeleted := 0,
     filesCreated := st.filesCreated, filesUpdated := st.filesUpdated,
     filesDeleted := sw.2,
     totalModified := st.filesCreated + st.filesUpdated + sw.2 + fo.2 + 0 },
   st.filesMap)

/-! ### manifest2Flows (src/src2flows.ts lines 23-62) -/

/-- Replace the first element satisfying `p` (the object the source's
`find` returns and mutates). -/
def updateFirst {α : Type} (p : α → Bool) (f : α → α) : List α → List α
  | [] => []
  | x :: xs => if p x then f x :: xs else x :: updateFirst p f xs

/-- One iteration of `manifest2Flows`' loop over changed paths: resolve
the owning document id from the path→id map, the manifest item by id, the
manifest file by basename, the flow item by id (each lookup skipping
silently on failure), then copy the on-disk content into the manifest
file snapshot and the flow item's role field. -/
def m2fStep (files : List (String × String)) (fs : FS)
    (acc : List FlowItem × List (String × ManifestItem) × Nat)
    (filePath : String) : List FlowItem × List (String × ManifestItem) × Nat :=
  match objGet files filePath with
  | none => acc
  | some id =>
    if id = "" then acc
    else
      match objGet acc.2.1 id with
      | none => acc
      | some manifestItem =>
        let fileName := basename filePath
        match manifestItem.files.find? (fun f => f.name = fileName) with
        | none => acc
        | some manifestFile =>
          match acc.1.find? (fun fl => fl.id = id) with
          | none => acc
          | some _ =>
            let content := (fsRead fs filePath).getD ""
            let modifiedDate := fsStatM fs filePath
            let newFiles := updateFirst (fun f => f.name = fileName)
              (fun f => { f with content := content, modifiedTime := some modifiedDate })
              manifestItem.files
            let item' := { manifestItem with files := newFiles }
            (updateFirst (fun fl => fl.id = id)
               (fun fl => setRole fl manifestFile.type content) acc.1,
             objSet acc.2.1 id item', acc.2.2 + 1)

/-- `manifest2Flows(flows, manifest, sourcePath, changedFiles, files)`:
returns the updated flows, the updated manifest and the changed count.
(`readFileSync` on a missing path would throw in the source; the model
totalises with an empty string, a case none of the verified runs hit.) -/
def manifest2Flows (flows : List FlowItem) (manifest : Manifest)
    (changedFiles : List String) (files : List (String × String)) (fs : FS) :
    List FlowItem × Manifest × Nat :=
  let r := changedFiles.foldl (m2fStep files fs) (flows, manifest.files, 0)
  (r.1, { manifest with files := r.2.1 }, r.2.2)

/-! ### The change-coordinator handlers of `main` (src/watcher.ts) -/

/-- Observable effects of the two asynchronous handlers in `main`. -/
inductive Effect : Type
  | logInfo (msg : String)
  | logError (msg : String)
  | fetchFlows
  | buildManifest
  | applyManifestEff
  | postFlowsEff
deriving DecidableEq, Repr

structure FlowsResp : Type where
  flows : List FlowItem
  rev : String
deriving DecidableEq, Repr

/-- The coordinator state owned by `main`: the held flows response, the
live manifest, and the local tree. -/
structure CoordState : Type where
  flowsResponse : FlowsResp
  manifest : Manifest
  fs : FS
deriving DecidableEq, Repr

/-- The `listenToFlowsChange` callback of `main` (src/watcher.ts lines
66-78): a notification whose revision equals the held revision is logged
and dropped; otherwise the flows are refetched (`fetched` is the oracle
for `getFlows`), a new manifest is built and applied against the held
manifest. -/
def remoteNotifyHandler (st : CoordState) (eventRev : Option String)
    (fetched : FlowsResp) (sourcePath : String) : CoordState × List Effect :=
  if eventRev = some st.flowsResponse.rev then
    (st, [Effect.logInfo "flows not changed"])
  else
    let newManifest := flows2Manifest fetched.flows
    let r := applyManifest newManifest st.manifest sourcePath st.fs
    ({ st with flowsResponse := fetched, fs := r.1 },
     [Effect.logInfo "flows changed", Effect.fetchFlows, Effect.buildManifest,
      Effect.applyManifestEff])

/-- The debounce-timer body of the chokidar change handler (src/watcher.ts
lines 128-150): run `manifest2Flows` over the queued paths; when anything
changed, post the flows (`postResult` is the oracle for `postFlows`,
`Except.error` covering the thrown conflict and transport errors); on
success adopt the new revision, on error only log; finally clear the
queue.  Returns the new state, the emitted effects, and the queue. -/
def localBatchHandler (st : CoordState) (files : List (String × String))
    (changeQueue : List String) (postResult : Except String String) :
    CoordState × List Effect × List String :=
  if changeQueue = [] then (st, [], changeQueue)
  else
    let r := manifest2Flows st.flowsResponse.flows st.manifest changeQueue files st.fs
    let st1 := { st with
      flowsResponse := { flows := r.1, rev := st.flowsResponse.rev },
      manifest := r.2.1 }
    if r.2.2 > 0 then
      match postResult with
      | Except.ok newRev =>
        ({ st1 with flowsResponse := { flows := r.1, rev := newRev } },
         [Effect.postFlowsEff], [])
      | Except.error e =>
        (st1, [Effect.postFlowsEff, Effect.logError e], [])
    else (st1, [], [])

/-- Flat serialisation of a manifest, witnessing byte-identity of equal
manifests (stands in for the JSON the source persists). -/
def roleTag : Role → String
  | Role.rfunc => "func"
  | Role.rformat => "format"
  | Role.rini => "initialize"
  | Role.rfin => "finalize"
  | Role.rinfo => "info"

def manifestFileBytes (f : ManifestFile) : String :=
  "\x7btype:" ++ roleTag f.type ++ ",name:" ++ f.name ++ ",content:" ++ f.content ++ "\x7d"

def manifestItemBytes (it : ManifestItem) : String :=
  "\x7bid:" ++ it.id ++ ",type:" ++ it.type ++ ",name:" ++ it.name
    ++ ",folderName:" ++ it.folderName ++ ",baseFileName:" ++ it.baseFileName
    ++ ",files:" ++ String.join (it.files.map manifestFileBytes) ++ "\x7d"

def manifestFolderBytes (f : ManifestFolder) : String :=
  "\x7bid:" ++ f.id ++ ",type:" ++ f.type ++ ",name:" ++ f.name
    ++ ",folderName:" ++ f.folderName ++ "\x7d"

def manifestBytes (m : Manifest) : String :=
  "\x7bfolders:"
    ++ String.join (m.folders.map (fun p => p.1 ++ ":" ++ manifestFolderBytes p.2))
    ++ ",files:"
    ++ String.join (m.files.map (fun p => p.1 ++ ":" ++ manifestItemBytes p.2))
    ++ "\x7d"

/-! ### Association-list lemmas -/

theorem find?_map_upd {α : Type} (as : List (String × α)) (k k' : String) (v : α)
    (h : k' ≠ k) :
    (as.map (fun p => if p.1 = k then (k, v) else p)).find? (fun p => p.1 = k')
      = as.find? (fun p => p.1 = k') := by
  induction as with
  | nil => rfl
  | cons a as ih =>
    by_cases ha : a.1 = k
    · rw [List.map_cons, if_pos ha,
        List.find?_cons_of_neg _ (by simp [Ne.symm h]),
        List.find?_cons_of_neg _ (by simp [ha, Ne.symm h]), ih]
    · rw [List.map_cons, if_neg ha]
      by_cases hk' : a.1 = k'
      · rw [List.find?_cons_of_pos _ (by simp [hk']),
          List.find?_cons_of_pos _ (by simp [hk'])]
      · rw [List.find?_cons_of_neg _ (by simp [hk']),
          List.find?_cons_of_neg _ (by simp [hk']), ih]

theorem find?_map_upd_self {α : Type} (as : List (String × α)) (k : String) (v : α)
    (h : as.any (fun p => p.1 = k) = true) :
    (as.map (fun p => if p.1 = k then (k, v) else p)).find? (fun p => p.1 = k)
      = some (k, v) := by
  induction as with
  | nil => simp at h
  | cons a as ih =>
    by_cases ha : a.1 = k
    · rw [List.map_cons, if_pos ha, List.find?_cons_of_pos _ (by simp)]
    · simp only [List.any_cons, Bool.or_eq_true, decide_eq_true_eq] at h
      rcases h with h | h
      · exact absurd h ha
      · rw [List.map_cons, if_neg ha, List.find?_cons_of_neg _ (by simp [ha]), ih h]

/-- JS record update semantics: reading back after a set. -/
theorem objGet_objSet {α : Type} (m : List (String × α)) (k k' : String) (v : α) :
    objGet (objSet m k v) k' = if k' = k then some v else objGet m k' := by
  unfold objGet objSet
  by_cases hany : m.any (fun p => p.1 = k) = true
  · rw [if_pos hany]
    by_cases hk : k' = k
    · subst hk
      rw [if_pos rfl, find?_map_upd_self m k' v hany]
      rfl
    · rw [if_neg hk, find?_map_upd m k k' v hk]
  · rw [if_neg hany, List.find?_append]
    have hnone : m.find? (fun p => p.1 = k) = none := by
      rw [List.find?_eq_none]
      intro x hx
      simp only [decide_eq_true_eq]
      intro hxk
      have : m.any (fun p => p.1 = k) = true := by
        rw [List.any_eq_true]
        exact ⟨x, hx, by simp [hxk]⟩
      exact hany this
    by_cases hk : k' = k
    · subst hk
      rw [hnone]
      simp [List.find?]
    · rw [if_neg hk]
      have hsing : ([(k, v)].find? (fun p => p.1 = k')) = none := by
        rw [List.find?_eq_none]
        intro x hx
        simp only [List.mem_singleton] at hx
        subst hx
        simp [Ne.symm hk]
      rw [hsing]
      cases hf : m.find? (fun p => p.1 = k') <;> simp

theorem objGet_objSet_self {α : Type} (m : List (String × α)) (k : String) (v : α) :
    objGet (objSet m k v) k = some v := by
  rw [objGet_objSet]
  simp

theorem objGet_objSet_other {α : Type} (m : List (String × α)) (k k' : String) (v : α)
    (h : k' ≠ k) : objGet (objSet m k v) k' = objGet m k' := by
  rw [objGet_objSet, if_neg h]

/-! ### Filesystem lemmas -/

theorem fsRead_fsWrite_self (fs : FS) (p c : String) :
    fsRead (fsWrite fs p c) p = some c := by
  simp [fsRead, fsWrite, objGet_objSet_self]

theorem fsStatM_fsWrite_self (fs : FS) (p c : String) :
    fsStatM (fsWrite fs p c) p = fs.clock := by
  simp [fsStatM, fsWrite, objGet_objSet_self]

theorem fsRead_fsWrite_other (fs : FS) (p p' c : String) (h : p ≠ p') :
    fsRead (fsWrite fs p' c) p = fsRead fs p := by
  simp [fsRead, fsWrite, objGet_objSet_other _ _ _ _ h]

theorem fsStatM_fsWrite_other (fs : FS) (p p' c : String) (h : p ≠ p') :
    fsStatM (fsWrite fs p' c) p = fsStatM fs p := by
  simp [fsStatM, fsWrite, objGet_objSet_other _ _ _ _ h]

theorem fsIsFile_of_objGet (fs : FS) (p : String) (f : FsFile)
    (h : objGet fs.files p = some f) : fsIsFile fs p = true := by
  unfold fsIsFile
  unfold objGet at h
  rw [List.any_eq_true]
  cases hf : fs.files.find? (fun q => q.1 = p) with
  | none => rw [hf] at h; simp at h
  | some q =>
    have := List.find?_some hf
    exact ⟨q, List.mem_of_find?_eq_some hf, this⟩

theorem fsIsFile_fsWrite_self (fs : FS) (p c : String) :
    fsIsFile (fsWrite fs p c) p = true :=
  fsIsFile_of_objGet _ _ { content := c, mtime := fs.clock }
    (by simp [fsWrite, objGet_objSet_self])

theorem fsWrite_dirs (fs : FS) (p c : String) : (fsWrite fs p c).dirs = fs.dirs := rfl

theorem fsMkdir_dirs_mono (fs : FS) (p q : String) (h : fs.dirs.contains q = true) :
    (fsMkdir fs p).dirs.contains q = true := by
  unfold fsMkdir
  rw [List.elem_iff] at h ⊢
  by_cases hmem : p ∈ fs.dirs <;> simp [hmem, h]

theorem fsMkdir_files (fs : FS) (p : String) : (fsMkdir fs p).files = fs.files := rfl

theorem fsExists_fsMkdir_self (fs : FS) (p : String) :
    fsExists (fsMkdir fs p) p = true := by
  unfold fsExists fsIsDir
  rw [Bool.or_eq_true]
  right
  unfold fsMkdir
  rw [List.elem_iff]
  by_cases hmem : p ∈ fs.dirs <;> simp [hmem]

/-! ### Digit-character and separator lemmas -/

theorem digit_char_ne (k : Nat) (hk : k < 10) :
    Char.ofNat (48 + k) ≠ '/' ∧ Char.ofNat (48 + k) ≠ '\\' := by
  revert hk
  revert k
  decide

theorem natToCharsAux_sep_free (fuel n : Nat) (acc : List Char)
    (h : ('/' ∉ acc) ∧ ('\\' ∉ acc)) :
    ('/' ∉ natToCharsAux fuel n acc) ∧ ('\\' ∉ natToCharsAux fuel n acc) := by
  induction fuel generalizing n acc with
  | zero =>
    have hd := digit_char_ne (n % 10) (Nat.mod_lt _ (by omega))
    simp only [natToCharsAux, List.mem_cons]
    constructor
    · rintro (hc | hc)
      · exact hd.1 hc.symm
      · exact h.1 hc
    · rintro (hc | hc)
      · exact hd.2 hc.symm
      · exact h.2 hc
  | succ fuel ih =>
    have hd := digit_char_ne (n % 10) (Nat.mod_lt _ (by omega))
    have hcons : ('/' ∉ (Char.ofNat (48 + n % 10) :: acc))
        ∧ ('\\' ∉ (Char.ofNat (48 + n % 10) :: acc)) := by
      simp only [List.mem_cons]
      constructor
      · rintro (hc | hc)
        · exact hd.1 hc.symm
        · exact h.1 hc
      · rintro (hc | hc)
        · exact hd.2 hc.symm
        · exact h.2 hc
    simp only [natToCharsAux]
    by_cases hn : n < 10
    · simpa only [if_pos hn] using hcons
    · rw [if_neg hn]
      exact ih _ _ hcons

theorem natToChars_sep_free (n : Nat) (acc : List Char)
    (h : ('/' ∉ acc) ∧ ('\\' ∉ acc)) :
    ('/' ∉ natToChars n acc) ∧ ('\\' ∉ natToChars n acc) :=
  natToCharsAux_sep_free n n acc h

theorem natToString_sep_free (n : Nat) :
    ('/' ∉ (natToString n).data) ∧ ('\\' ∉ (natToString n).data) := by
  unfold natToString
  exact natToChars_sep_free n [] (by simp)

theorem replaceSeps_sep_free (s : String) :
    ('/' ∉ (replaceSeps s).data) ∧ ('\\' ∉ (replaceSeps s).data) := by
  unfold replaceSeps
  constructor <;>
  · intro hc
    simp only [String.data] at hc
    rw [List.mem_map] at hc
    obtain ⟨c, _, hc⟩ := hc
    by_cases h1 : c = '/' ∨ c = '\\' <;> simp [h1] at hc <;> simp_all

/-! ### The sweep never deletes: `path.extname` keeps its leading dot,
while the managed-extension list holds bare names. -/

theorem extname_not_managed (s : String) :
    sweepExtensions.contains (extname s) = false := by
  have hchar : ∀ u ∈ sweepExtensions, u.data.head? ≠ some '.' := by decide
  unfold extname
  by_cases h : ((basename s).data.reverse.takeWhile (fun c => c ≠ '.')).length + 1
      < (basename s).data.length
  · rw [if_pos h]
    rw [← Bool.not_eq_true, List.elem_iff]
    intro hmem
    exact hchar _ hmem rfl
  · rw [if_neg h]
    decide

theorem sweepEntry_no_delete (fm : List (String × String)) (fp : String)
    (acc : List String × FS × Nat) (file : String) :
    (sweepEntry fm fp acc file).2 = acc.2 := by
  simp only [sweepEntry]
  split
  · rfl
  · split
    · exfalso
      rename_i hcond
      have hmem : sweepExtensions.contains (extname file) = true := hcond.2.1
      rw [extname_not_managed] at hmem
      exact Bool.false_ne_true hmem
    · rfl

theorem sweepEntry_fold_no_delete (fm : List (String × String)) (fp : String)
    (names : List String) (acc : List String × FS × Nat) :
    (names.foldl (sweepEntry fm fp) acc).2 = acc.2 := by
  induction names generalizing acc with
  | nil => rfl
  | cons a names ih => rw [List.foldl_cons, ih, sweepEntry_no_delete]

/-- The deletion sweep of `applyManifest` never modifies the filesystem
and never counts a deletion, whatever the manifest, path map, stack or
fuel: `path.extname` always returns `''` or a dot-prefixed extension,
neither of which is in `['vue', 'js', 'md']`. -/
theorem sweepRun_id (fm : List (String × String)) (fuel : Nat)
    (stack : List String) (fs : FS) (del : Nat) :
    sweepRun fm fuel stack fs del = (fs, del) := by
  induction fuel generalizing stack fs del with
  | zero => rfl
  | succ fuel ih =>
    cases stack with
    | nil => rfl
    | cons fullPath rest =>
      rw [sweepRun]
      have h2 := sweepEntry_fold_no_delete fm fullPath (fsReaddir fs fullPath)
        ([], fs, del)
      have hfs : ((fsReaddir fs fullPath).foldl (sweepEntry fm fullPath)
          ([], fs, del)).2.1 = fs := by rw [h2]
      have hdel : ((fsReaddir fs fullPath).foldl (sweepEntry fm fullPath)
          ([], fs, del)).2.2 = del := by rw [h2]
      rw [hfs, hdel, ih]

/-- `applyManifest` with the (provably inert) sweep eliminated. -/
theorem applyManifest_char (m em : Manifest) (root : String) (fs0 : FS) :
    applyManifest m em root fs0
      = (let fs1 := if fsExists fs0 root then fs0 else fsMkdir fs0 root
         let fo := (objValues m.folders).foldl (applyFolderStep root) (fs1, 0)
         let init : ApplyState :=
           { fs := fo.1, filesMap := [], filesCreated := 0, filesUpdated := 0 }
         let fi := m.files.foldl (applyItemStep root em.files) (init, [])
         (fi.1.fs,
          { m with files := fi.2 },
          { foldersCreated := fo.2, foldersDeleted := 0,
            filesCreated := fi.1.filesCreated, filesUpdated := fi.1.filesUpdated,
            filesDeleted := 0,
            totalModified := fi.1.filesCreated + fi.1.filesUpdated + 0 + fo.2 + 0 },
          fi.1.filesMap)) := by
  simp only [applyManifest, sweepRun_id]

/-! ### C7 — what sanitizeName does to separators -/

/-- The spec's words for C7: the returned value equals the raw name with
the separator characters *removed*. -/
def specStripRemoved (s : String) : String :=
  String.mk (s.data.filter (fun c => ¬(c = '/' ∨ c = '\\')))

/-- C7 is false as stated: on the first-seen raw name "a/b" the resolver
returns "a-b" (separators replaced by dashes), not "ab" (separators
removed). -/
theorem sanitizeName_not_strip_counterexample :
    (sanitizeName "a/b" "" []).1 ≠ specStripRemoved "a/b"
      ∧ (sanitizeName "a/b" "" []).1 = "a-b"
      ∧ specStripRemoved "a/b" = "ab" := by
  refine ⟨?_, by decide, by decide⟩
  decide

/-- C7 amended: on a first-seen name the resolver returns the raw name
with every '/' and '\' replaced by '-', and nothing else changed. -/
theorem sanitizeName_replaces_seps (rawName scope : String)
    (m : List (String × Nat))
    (h : (mget m (pathJoin2 scope (replaceSeps rawName))).getD 0 = 0) :
    ((sanitizeName rawName scope m).1).data
      = rawName.data.map (fun c => if c = '/' ∨ c = '\\' then '-' else c) := by
  simp only [sanitizeName, h]
  simp [replaceSeps]

theorem sanitizeName_replaces_seps_witness :
    (mget [] (pathJoin2 "" (replaceSeps "a/b"))).getD 0 = 0
      ∧ ((sanitizeName "a/b" "" []).1).data
          = "a/b".data.map (fun c => if c = '/' ∨ c = '\\' then '-' else c) :=
  ⟨by decide, sanitizeName_replaces_seps "a/b" "" [] (by decide)⟩

/-! ### C8 — determinism of the projection -/

/-- C8: `flows2Manifest` is a pure function of the flows; two runs on the
same collection (each allocating its own fresh seeded name-counter map
inside) return equal manifests, hence byte-identical serialisations. -/
theorem flows2Manifest_deterministic (flows : List FlowItem) :
    flows2Manifest flows = flows2Manifest flows
      ∧ manifestBytes (flows2Manifest flows) = manifestBytes (flows2Manifest flows) :=
  ⟨rfl, rfl⟩

/-! ### C9 — equal-revision notifications are discarded without I/O -/

/-- C9: when the event's revision equals the held revision, the remote
notification handler leaves the coordinator state untouched and emits
only a log line — no fetch, no manifest rebuild, no reconciliation. -/
theorem remoteNotify_equal_rev_noop (st : CoordState) (eventRev : Option String)
    (fetched : FlowsResp) (sourcePath : String)
    (h : eventRev = some st.flowsResponse.rev) :
    (remoteNotifyHandler st eventRev fetched sourcePath).1 = st
      ∧ (remoteNotifyHandler st eventRev fetched sourcePath).2
          = [Effect.logInfo "flows not changed"]
      ∧ Effect.fetchFlows ∉ (remoteNotifyHandler st eventRev fetched sourcePath).2
      ∧ Effect.buildManifest ∉ (remoteNotifyHandler st eventRev fetched sourcePath).2
      ∧ Effect.applyManifestEff ∉ (remoteNotifyHandler st eventRev fetched sourcePath).2 := by
  unfold remoteNotifyHandler
  rw [if_pos h]
  refine ⟨rfl, rfl, ?_, ?_, ?_⟩ <;> simp

def stW : CoordState :=
  { flowsResponse := { flows := [], rev := "1" }, manifest := emptyManifest,
    fs := { files := [], dirs := [], clock := 0 } }

theorem remoteNotify_equal_rev_noop_witness :
    (some "1" = some stW.flowsResponse.rev)
      ∧ ((remoteNotifyHandler stW (some "1") { flows := [], rev := "2" } "root").1 = stW
          ∧ (remoteNotifyHandler stW (some "1") { flows := [], rev := "2" } "root").2
              = [Effect.logInfo "flows not changed"]
          ∧ Effect.fetchFlows
              ∉ (remoteNotifyHandler stW (some "1") { flows := [], rev := "2" } "root").2
          ∧ Effect.buildManifest
              ∉ (remoteNotifyHandler stW (some "1") { flows := [], rev := "2" } "root").2
          ∧ Effect.applyManifestEff
              ∉ (remoteNotifyHandler stW (some "1") { flows := [], rev := "2" } "root").2) :=
  ⟨rfl, remoteNotify_equal_rev_noop stW (some "1") { flows := [], rev := "2" } "root" rfl⟩

/-! ### C3 — what the coordinator does when a push fails -/

def flC3 : FlowItem :=
  { id := "f1", type := "function", label := "", name := "x", z := none,
    func := some "A", format := none, ini := none, fin := none, info := none }

def applyC3 :=
  applyManifest (flows2Manifest [flC3]) emptyManifest "root"
    { files := [], dirs := [], clock := 0 }

/-- The coordinator state after the initial projection, with the emitted
file subsequently edited on disk (content "B"). -/
def stC3 : CoordState :=
  { flowsResponse := { flows := [flC3], rev := "5" },
    manifest := applyC3.2.1,
    fs := fsWrite applyC3.1 "root/default/x.js" "B" }

/-- C3 is false as stated: when the push of a non-empty local batch fails
(the thrown conflict is the `Except.error` outcome), the handler emits no
fetch, no manifest rebuild and no reconciliation apply — it only logs —
yet clears the queue and keeps the stale revision, accepting further
local batches with no RemoteToLocal pass. -/
theorem conflict_no_remote_pass_counterexample :
    Effect.postFlowsEff
        ∈ (localBatchHandler stC3 applyC3.2.2.2 ["root/default/x.js"]
            (Except.error "conflict")).2.1
      ∧ Effect.fetchFlows
          ∉ (localBatchHandler stC3 applyC3.2.2.2 ["root/default/x.js"]
              (Except.error "conflict")).2.1
      ∧ Effect.buildManifest
          ∉ (localBatchHandler stC3 applyC3.2.2.2 ["root/default/x.js"]
              (Except.error "conflict")).2.1
      ∧ Effect.applyManifestEff
          ∉ (localBatchHandler stC3 applyC3.2.2.2 ["root/default/x.js"]
              (Except.error "conflict")).2.1
      ∧ (localBatchHandler stC3 applyC3.2.2.2 ["root/default/x.js"]
          (Except.error "conflict")).1.flowsResponse.rev = "5"
      ∧ (localBatchHandler stC3 applyC3.2.2.2 ["root/default/x.js"]
          (Except.error "conflict")).2.2 = [] := by
  decide

/-- C3 amended: on any push failure (conflicts included) the handler only
logs the error; it runs no RemoteToLocal pass (no fetch, no rebuild, no
apply), leaves the held revision unchanged, and clears the queue so
further local batches are accepted immediately. -/
theorem conflict_only_logs (st : CoordState) (files : List (String × String))
    (changeQueue : List String) (err : String) :
    Effect.fetchFlows
        ∉ (localBatchHandler st files changeQueue (Except.error err)).2.1
      ∧ Effect.buildManifest
          ∉ (localBatchHandler st files changeQueue (Except.error err)).2.1
      ∧ Effect.applyManifestEff
          ∉ (localBatchHandler st files changeQueue (Except.error err)).2.1
      ∧ (localBatchHandler st files changeQueue
          (Except.error err)).1.flowsResponse.rev = st.flowsResponse.rev
      ∧ (localBatchHandler st files changeQueue (Except.error err)).2.2 = [] := by
  unfold localBatchHandler
  by_cases hq : changeQueue = []
  · rw [if_pos hq]
    subst hq
    refine ⟨by simp, by simp, by simp, rfl, rfl⟩
  · rw [if_neg hq]
    by_cases hc :
        (manifest2Flows st.flowsResponse.flows st.manifest changeQueue files st.fs).2.2 > 0
    · rw [if_pos hc]
      refine ⟨by simp, by simp, by simp, rfl, rfl⟩
    · rw [if_neg hc]
      refine ⟨by simp, by simp, by simp, rfl, rfl⟩

/-! ### C2 — the deletion sweep (code bug: extname keeps its dot) -/

def fsC2 : FS :=
  { files := [("root/old.js", { content := "junk", mtime := 1 })],
    dirs := ["root"], clock := 2 }

/-- C2's failing input evaluated: `root/old.js` has a managed extension
('js' is in the list) and is absent from the (empty) manifest's index,
yet the reconciliation deletes nothing — `path.extname` yields ".js",
which the dot-less list `['vue','js','md']` never contains, so the
sweep's delete branch is unreachable for every input. -/
theorem sweep_deletes_nothing :
    ((applyManifest emptyManifest emptyManifest "root" fsC2).2.2.1.filesDeleted = 0
      ∧ fsIsFile (applyManifest emptyManifest emptyManifest "root" fsC2).1
          "root/old.js" = true
      ∧ sweepExtensions.contains "js" = true
      ∧ extname "old.js" = ".js")
    ∧ (∀ (fm : List (String × String)) (fuel : Nat) (stack : List String)
        (fs : FS) (del : Nat), sweepRun fm fuel stack fs del = (fs, del)) :=
  ⟨by decide, sweepRun_id⟩

/-! ### C6 — collision suffixing in input iteration order -/

theorem mget_mset_self (m : List (String × Nat)) (k : String) (v : Nat) :
    mget (mset m k v) k = some v := by
  unfold mget mset
  exact objGet_objSet_self m k v

/-- `sanitizeName` when the scoped key holds a non-zero count. -/
theorem sanitizeName_hit (name folderName : String) (m : List (String × Nat))
    (c : Nat) (hm : mget m (pathJoin2 folderName (replaceSeps name)) = some c)
    (hc0 : c ≠ 0) :
    sanitizeName name folderName m
      = (replaceSeps name ++ " (" ++ natToString c ++ ")",
         mset m (pathJoin2 folderName (replaceSeps name)) (c + 1)) := by
  simp only [sanitizeName, hm, Option.getD_some]
  rw [if_pos hc0]

/-- `sanitizeName` when the scoped key is absent (or zero, the JS-falsy
case). -/
theorem sanitizeName_miss (name folderName : String) (m : List (String × Nat))
    (hm : (mget m (pathJoin2 folderName (replaceSeps name))).getD 0 = 0) :
    sanitizeName name folderName m
      = (replaceSeps name, mset m (pathJoin2 folderName (replaceSeps name)) 1) := by
  simp only [sanitizeName, hm]
  simp

/-- Repeated reservation of the same raw name in the same scope, as the
iterated mutation of the shared counter map. -/
def sanitizeIter (name folderName : String) : Nat → List (String × Nat) → List String
  | 0, _ => []
  | n + 1, m =>
    let r := sanitizeName name folderName m
    r.1 :: sanitizeIter name folderName n r.2

theorem sanitizeIter_hit (name folderName : String) (n : Nat) :
    ∀ (m : List (String × Nat)) (c : Nat), c ≠ 0 →
    mget m (pathJoin2 folderName (replaceSeps name)) = some c →
    sanitizeIter name folderName n m
      = (List.range n).map
          (fun i => replaceSeps name ++ " (" ++ natToString (c + i) ++ ")") := by
  induction n with
  | zero => intro m c _ _; simp [sanitizeIter]
  | succ n ih =>
    intro m c hc0 hm
    rw [sanitizeIter, sanitizeName_hit name folderName m c hm hc0]
    rw [ih (mset m (pathJoin2 folderName (replaceSeps name)) (c + 1)) (c + 1)
      (by omega) (mget_mset_self _ _ _)]
    rw [List.range_succ_eq_map, List.map_cons, List.map_map, Nat.add_zero]
    congr 1
    apply List.map_congr_left
    intro i _
    have hh : c + 1 + i = c + (i + 1) := by omega
    simp [Function.comp, hh]

def tabFlowC6 (i : String) : FlowItem :=
  { id := i, type := "tab", label := "Flow", name := "", z := none,
    func := none, format := none, ini := none, fin := none, info := none }

/-- C6: two container documents both named "Flow" get folder names "Flow"
and "Flow (1)" in input order; in general, on a fresh scoped key the
first reservation returns the (separator-stripped) name unchanged and
the (k+1)-st reservation returns it suffixed with " (k)". -/
theorem collision_suffix_order (name folderName : String)
    (m : List (String × Nat)) (n : Nat)
    (h : mget m (pathJoin2 folderName (replaceSeps name)) = none) :
    ((flows2Manifest [tabFlowC6 "t1", tabFlowC6 "t2"]).folders.map
        (fun p => p.2.folderName) = ["Flow", "Flow (1)"])
      ∧ sanitizeIter name folderName (n + 1) m
          = replaceSeps name
            :: (List.range n).map
                (fun i => replaceSeps name ++ " (" ++ natToString (1 + i) ++ ")") := by
  constructor
  · decide
  · rw [sanitizeIter, sanitizeName_miss name folderName m (by rw [h]; rfl)]
    rw [sanitizeIter_hit name folderName n _ 1 one_ne_zero (mget_mset_self _ _ _)]

theorem collision_suffix_order_witness :
    (mget [] (pathJoin2 "" (replaceSeps "Flow")) = none)
      ∧ (((flows2Manifest [tabFlowC6 "t1", tabFlowC6 "t2"]).folders.map
            (fun p => p.2.folderName) = ["Flow", "Flow (1)"])
          ∧ sanitizeIter "Flow" "" (2 + 1) []
              = replaceSeps "Flow"
                :: (List.range 2).map
                    (fun i => replaceSeps "Flow" ++ " (" ++ natToString (1 + i) ++ ")")) :=
  ⟨rfl, collision_suffix_order "Flow" "" [] 2 rfl⟩

/-! ### C10 — an all-empty document still reserves its file name -/

theorem replaceSeps_ne_empty (s : String) (h : s ≠ "") : replaceSeps s ≠ "" := by
  intro h0
  apply h
  have hd := congrArg String.data h0
  unfold replaceSeps at hd
  simp only [List.map_eq_nil_iff] at hd
  cases s with
  | mk l =>
    simp only at hd
    rw [show ("" : String) = String.mk [] from rfl]
    exact congrArg String.mk hd

theorem pathJoin2_default_ne (r : String) (hr : r ≠ "") :
    ("default" : String) ≠ pathJoin2 "default" r := by
  unfold pathJoin2
  rw [if_neg (by decide), if_neg hr]
  intro h
  have hlen := congrArg String.length h
  rw [String.length_append, String.length_append] at hlen
  have h7 : ("default" : String).length = 7 := by decide
  have h1 : ("/" : String).length = 1 := by decide
  rw [h7, h1] at hlen
  have h0 : r.length = 0 := by omega
  apply hr
  cases r with
  | mk l =>
    have hl : l.length = 0 := h0
    rw [List.length_eq_zero] at hl
    rw [show ("" : String) = String.mk [] from rfl]
    exact congrArg String.mk hl

theorem mget_seeded_fresh (r : String) (hr : r ≠ "") :
    mget [("default", 1)] (pathJoin2 "default" r) = none := by
  unfold mget objGet
  rw [List.find?_cons_of_neg _ (by simpa using pathJoin2_default_ne r hr)]
  rfl

/-- A leaf document of supported type with name `nm` whose only populated
role field is `w` (all others absent). -/
def leafDoc (i nm w : String) : FlowItem :=
  { id := i, type := "function", label := "", name := nm, z := none,
    func := some w, format := none, ini := none, fin := none, info := none }

theorem foldersStep_leafDoc (acc : List (String × ManifestFolder) × List (String × Nat))
    (i nm w : String) : foldersStep acc (leafDoc i nm w) = acc := by
  simp [foldersStep, folderNameField, leafDoc]

theorem itemFiles_ws (i nm w b : String) (hw : strTrim w = "") :
    itemFiles (leafDoc i nm w) b = [] := by
  simp [itemFiles, flowFilesProperties, getRole, leafDoc, hw]

theorem itemFiles_filled (i nm w b : String) (hw : w ≠ "") (hwt : strTrim w ≠ "") :
    itemFiles (leafDoc i nm w) b
      = [{ type := Role.rfunc, name := b ++ ".js", content := w,
           modifiedTime := none }] := by
  simp [itemFiles, flowFilesProperties, getRole, leafDoc, hw, hwt]

/-- C10: a supported leaf document whose only role field is whitespace is
omitted from the manifest's items, yet its base file name is reserved in
the collision map, so a same-named later document in the same (default)
folder gets the " (1)" suffix even though no unsuffixed file was
emitted. -/
theorem empty_doc_reserves_name (id1 id2 nm ws body : String)
    (hid : id2 ≠ id1) (hnm : nm ≠ "") (hws : strTrim ws = "")
    (hbody : body ≠ "") (hbtrim : strTrim body ≠ "") :
    objGet (flows2Manifest [leafDoc id1 nm ws, leafDoc id2 nm body]).files id1 = none
      ∧ objGet (flows2Manifest [leafDoc id1 nm ws, leafDoc id2 nm body]).files id2
          = some { id := id2, type := "function", name := nm,
                   folderName := "default",
                   baseFileName := replaceSeps nm ++ " (1)",
                   files := [{ type := Role.rfunc,
                               name := replaceSeps nm ++ " (1)" ++ ".js",
                               content := body, modifiedTime := none }] } := by
  have hfresh : mget [("default", 1)] (pathJoin2 "default" (replaceSeps nm)) = none :=
    mget_seeded_fresh _ (replaceSeps_ne_empty nm hnm)
  have hsan1 : sanitizeName nm "default" [("default", 1)]
      = (replaceSeps nm,
         mset [("default", 1)] (pathJoin2 "default" (replaceSeps nm)) 1) :=
    sanitizeName_miss _ _ _ (by rw [hfresh]; rfl)
  have hsan2 : sanitizeName nm "default"
        (mset [("default", 1)] (pathJoin2 "default" (replaceSeps nm)) 1)
      = (replaceSeps nm ++ " (" ++ natToString 1 ++ ")",
         mset (mset [("default", 1)] (pathJoin2 "default" (replaceSeps nm)) 1)
           (pathJoin2 "default" (replaceSeps nm)) 2) :=
    sanitizeName_hit _ _ _ 1 (mget_mset_self _ _ _) one_ne_zero
  have hone : replaceSeps nm ++ " (" ++ natToString 1 ++ ")" = replaceSeps nm ++ " (1)" := by
    have h1 : natToString 1 = "1" := by decide
    rw [h1, String.append_assoc, String.append_assoc]
    congr 1
  have hM : (flows2Manifest [leafDoc id1 nm ws, leafDoc id2 nm body]).files
      = [(id2, { id := id2, type := "function", name := nm,
                 folderName := "default",
                 baseFileName := replaceSeps nm ++ " (1)",
                 files := [{ type := Role.rfunc,
                             name := replaceSeps nm ++ " (1)" ++ ".js",
                             content := body, modifiedTime := none }] })] := by
    simp only [flows2Manifest, List.foldl_cons, List.foldl_nil,
      foldersStep_leafDoc]
    simp [filesStep, leafDoc, supportedFlowFileTypes, hsan1, hsan2,
      itemFiles, getRole, flowFilesProperties, hws, hbody, hbtrim, objSet, hone]
  rw [hM]
  constructor
  · unfold objGet
    rw [List.find?_cons_of_neg _ (by simpa using hid)]
    rfl
  · unfold objGet
    rw [List.find?_cons_of_pos _ (by simp)]
    rfl

theorem empty_doc_reserves_name_witness :
    (("f2" : String) ≠ "f1" ∧ ("x" : String) ≠ "" ∧ strTrim "   " = ""
        ∧ ("B" : String) ≠ "" ∧ strTrim "B" ≠ "")
      ∧ (objGet (flows2Manifest [leafDoc "f1" "x" "   ", leafDoc "f2" "x" "B"]).files
            "f1" = none
          ∧ objGet (flows2Manifest [leafDoc "f1" "x" "   ", leafDoc "f2" "x" "B"]).files
              "f2"
            = some { id := "f2", type := "function", name := "x",
                     folderName := "default",
                     baseFileName := replaceSeps "x" ++ " (1)",
                     files := [{ type := Role.rfunc,
                                 name := replaceSeps "x" ++ " (1)" ++ ".js",
                                 content := "B", modifiedTime := none }] }) :=
  ⟨⟨by decide, by decide, by decide, by decide, by decide⟩,
   empty_doc_reserves_name "f1" "f2" "x" "   " "B" (by decide) (by decide)
     (by decide) (by decide) (by decide)⟩

/-! ### C1 — the update branch never compares content -/

def c1NewItem : ManifestItem :=
  { id := "i", type := "function", name := "a", folderName := "default",
    baseFileName := "a",
    files := [{ type := Role.rfunc, name := "a.js", content := "NEW",
                modifiedTime := none }] }

def c1PrevItem : ManifestItem :=
  { c1NewItem with
    files := [{ type := Role.rfunc, name := "a.js", content := "X",
                modifiedTime := some 5 }] }

def c1M : Manifest := { folders := [], files := [("i", c1NewItem)] }

def c1P : Manifest := { folders := [], files := [("i", c1PrevItem)] }

def c1Fs : FS :=
  { files := [("root/default/a.js", { content := "OLD", mtime := 5 })],
    dirs := ["root", "root/default"], clock := 6 }

/-- C1 is false as stated: the file exists, its previously recorded mtime
(5) equals the on-disk mtime (5), and the new manifest content "NEW"
differs from the disk content "OLD" — yet `applyManifest` leaves the file
untouched, counts no update and bumps no recorded mtime; contents are
never compared. -/
theorem mtime_equal_skips_despite_content_counterexample :
    (fsExists c1Fs "root/default/a.js" = true
        ∧ fsStatM c1Fs "root/default/a.js" = 5
        ∧ fsRead c1Fs "root/default/a.js" = some "OLD")
      ∧ fsRead (applyManifest c1M c1P "root" c1Fs).1 "root/default/a.js" = some "OLD"
      ∧ (applyManifest c1M c1P "root" c1Fs).2.2.1.filesUpdated = 0
      ∧ (objGet (applyManifest c1M c1P "root" c1Fs).2.1.files "i").map
          (fun it => it.files.map (fun f => f.modifiedTime)) = some [none] := by
  decide

/-- C1 amended: for a file already on disk, when the previous record for
the (document id, role) exists and its mtime equals the on-disk mtime the
loop body leaves the filesystem untouched and counts nothing, regardless
of any content difference; when there is no previous record or the
mtimes differ it overwrites unconditionally and increments
`filesUpdated`. -/
theorem applyFileStep_branches (sourcePath : String) (item : ManifestItem)
    (exItem : Option ManifestItem) (st : ApplyState) (acc : List ManifestFile)
    (mf : ManifestFile)
    (hex : fsExists st.fs (pathJoin3 sourcePath item.folderName mf.name) = true) :
    ((∃ ei ef, exItem = some ei
        ∧ ei.files.find? (fun f => f.type = mf.type) = some ef
        ∧ ef.modifiedTime
            = some (fsStatM st.fs (pathJoin3 sourcePath item.folderName mf.name))) →
      (applyFileStep sourcePath item exItem (st, acc) mf).1.fs = st.fs
        ∧ (applyFileStep sourcePath item exItem (st, acc) mf).1.filesUpdated
            = st.filesUpdated
        ∧ (applyFileStep sourcePath item exItem (st, acc) mf).2 = acc ++ [mf])
    ∧ ((∀ ei, exItem = some ei →
          ∀ ef, ei.files.find? (fun f => f.type = mf.type) = some ef →
          ef.modifiedTime
            ≠ some (fsStatM st.fs (pathJoin3 sourcePath item.folderName mf.name))) →
      (applyFileStep sourcePath item exItem (st, acc) mf).1.fs
          = fsWrite st.fs (pathJoin3 sourcePath item.folderName mf.name) mf.content
        ∧ (applyFileStep sourcePath item exItem (st, acc) mf).1.filesUpdated
            = st.filesUpdated + 1) := by
  constructor
  · rintro ⟨ei, ef, hei, hef, hmt⟩
    simp only [applyFileStep, hei, hef, hex, hmt]
    simp
  · intro hne
    simp only [applyFileStep, hex]
    cases hexi : exItem with
    | none => simp
    | some ei =>
      cases hef : ei.files.find? (fun f => f.type = mf.type) with
      | none => simp [hef]
      | some ef =>
        have := hne ei hexi ef hef
        simp [hef, this]

theorem applyFileStep_branches_witness :
    fsExists c1Fs "root/default/a.js" = true
      ∧ (applyFileStep "root" c1NewItem (some c1PrevItem)
          ({ fs := c1Fs, filesMap := [], filesCreated := 0, filesUpdated := 0 }, [])
          { type := Role.rfunc, name := "a.js", content := "NEW",
            modifiedTime := none }).1.fs = c1Fs :=
  ⟨by decide,
   ((applyFileStep_branches "root" c1NewItem (some c1PrevItem)
        { fs := c1Fs, filesMap := [], filesCreated := 0, filesUpdated := 0 } []
        { type := Role.rfunc, name := "a.js", content := "NEW",
          modifiedTime := none } (by decide)).1
      ⟨c1PrevItem,
       { type := Role.rfunc, name := "a.js", content := "X", modifiedTime := some 5 },
       rfl, by decide, by decide⟩).1⟩

/-! ### C5 — idempotence of the reconciler -/

def c5Item : ManifestItem :=
  { id := "i", type := "function", name := "a", folderName := "default",
    baseFileName := "a",
    files := [{ type := Role.rfunc, name := "a.js", content := "X",
                modifiedTime := none }] }

def c5Prev : ManifestItem :=
  { c5Item with
    files := [{ type := Role.rfunc, name := "a.js", content := "X",
                modifiedTime := some 5 }] }

def c5M : Manifest := { folders := [], files := [("i", c5Item)] }

def c5P : Manifest := { folders := [], files := [("i", c5Prev)] }

def c5Fs : FS :=
  { files := [("root/default/a.js", { content := "X", mtime := 5 })],
    dirs := ["root", "root/default"], clock := 6 }

/-- C5 is false as stated: the first call skips the file (the previous
manifest's recorded mtime 5 equals the on-disk mtime), so the
post-first-call manifest still has no recorded mtime; the second call,
given that same manifest as both arguments and the unchanged filesystem,
sees `undefined !== mtime` and rewrites the file — `totalModified` is 1,
not 0. -/
theorem second_apply_not_noop_counterexample :
    (applyManifest
        (applyManifest c5M c5P "root" c5Fs).2.1
        (applyManifest c5M c5P "root" c5Fs).2.1
        "root"
        (applyManifest c5M c5P "root" c5Fs).1).2.2.1.totalModified = 1 := by
  decide

/-! Infrastructure for the positive direction of C5 (and for C4): a
characterisation of the file pass when the previous manifest is empty
(every file is written), and of the file pass when every file's recorded
mtime matches the disk (every file is skipped). -/

theorem objGet_nil {α : Type} (k : String) : objGet ([] : List (String × α)) k = none := rfl

/-- A manifest file with its recorded mtime forgotten. -/
def eraseMT (mf : ManifestFile) : ManifestFile := { mf with modifiedTime := none }

/-- A manifest item with all recorded mtimes forgotten. -/
def eraseItemMT (it : ManifestItem) : ManifestItem :=
  { it with files := it.files.map eraseMT }

/-- With no previous record, the file-loop body always writes. -/
theorem applyFileStep_none_writes (root : String) (it : ManifestItem)
    (st : ApplyState) (acc : List ManifestFile) (mf : ManifestFile) :
    applyFileStep root it none (st, acc) mf
      = ({ fs := fsWrite st.fs (pathJoin3 root it.folderName mf.name) mf.content,
           filesMap := objSet st.filesMap (pathJoin3 root it.folderName mf.name) it.id,
           filesCreated :=
             if fsExists st.fs (pathJoin3 root it.folderName mf.name) = false
             then st.filesCreated + 1 else st.filesCreated,
           filesUpdated :=
             if fsExists st.fs (pathJoin3 root it.folderName mf.name) = false
             then st.filesUpdated else st.filesUpdated + 1 },
         acc ++ [{ mf with modifiedTime := some st.fs.clock }]) := by
  by_cases hex : fsExists st.fs (pathJoin3 root it.folderName mf.name) = false
  · simp [applyFileStep, hex, fsStatM_fsWrite_self]
  · have hex' : fsExists st.fs (pathJoin3 root it.folderName mf.name) = true := by
      simpa using hex
    simp [applyFileStep, hex', fsStatM_fsWrite_self]

theorem fsIsFile_iff (fs : FS) (p : String) :
    fsIsFile fs p = true ↔ ∃ f, objGet fs.files p = some f := by
  unfold fsIsFile objGet
  rw [List.any_eq_true]
  constructor
  · rintro ⟨x, hx, hpx⟩
    cases hf : fs.files.find? (fun r => r.1 = p) with
    | none =>
      rw [List.find?_eq_none] at hf
      exact absurd hpx (by simpa using hf x hx)
    | some y => exact ⟨y.2, rfl⟩
  · rintro ⟨f, hf⟩
    cases hq : fs.files.find? (fun r => r.1 = p) with
    | none => rw [hq] at hf; simp at hf
    | some y =>
      have hmem := List.mem_of_find?_eq_some hq
      have hpred := List.find?_some hq
      exact ⟨y, hmem, hpred⟩

theorem fsExists_mono_write (fs : FS) (p q c : String)
    (h : fsExists fs p = true) : fsExists (fsWrite fs q c) p = true := by
  unfold fsExists at h ⊢
  rw [Bool.or_eq_true] at h ⊢
  rcases h with h | h
  · left
    rw [fsIsFile_iff] at h ⊢
    obtain ⟨f, hf⟩ := h
    by_cases hpq : p = q
    · subst hpq
      exact ⟨{ content := c, mtime := fs.clock },
        by simp [fsWrite, objGet_objSet_self]⟩
    · refine ⟨f, ?_⟩
      show objGet (objSet fs.files q { content := c, mtime := fs.clock }) p = some f
      rw [objGet_objSet_other _ _ _ _ hpq]
      exact hf
  · right
    exact h

theorem fsExists_mono_mkdir (fs : FS) (p q : String)
    (h : fsExists fs p = true) : fsExists (fsMkdir fs q) p = true := by
  unfold fsExists at h ⊢
  rw [Bool.or_eq_true] at h ⊢
  rcases h with h | h
  · left
    exact h
  · right
    exact fsMkdir_dirs_mono fs q p h

/-- Characterisation of the inner file loop when there is no previous
record (`existingFile` is always absent, so every file is written): the
returned files carry the write-time mtimes, the disk and the path→id map
hold each file's content and owning id, and paths outside the item are
untouched. -/
theorem inner_fold_spec (root : String) (it : ManifestItem)
    (mfs : List ManifestFile) (st : ApplyState) (acc : List ManifestFile)
    (hnd : (mfs.map (fun mf => pathJoin3 root it.folderName mf.name)).Nodup) :
    ∃ mfs' : List ManifestFile,
      (mfs.foldl (applyFileStep root it none) (st, acc)).2 = acc ++ mfs'
      ∧ mfs'.map eraseMT = mfs.map eraseMT
      ∧ (mfs.foldl (applyFileStep root it none) (st, acc)).1.fs.dirs = st.fs.dirs
      ∧ (∀ mf' ∈ mfs', ∃ t, mf'.modifiedTime = some t
          ∧ objGet (mfs.foldl (applyFileStep root it none) (st, acc)).1.fs.files
              (pathJoin3 root it.folderName mf'.name)
            = some { content := mf'.content, mtime := t }
          ∧ objGet (mfs.foldl (applyFileStep root it none) (st, acc)).1.filesMap
              (pathJoin3 root it.folderName mf'.name) = some it.id)
      ∧ (∀ q, q ∉ mfs.map (fun mf => pathJoin3 root it.folderName mf.name) →
          objGet (mfs.foldl (applyFileStep root it none) (st, acc)).1.fs.files q
            = objGet st.fs.files q
          ∧ objGet (mfs.foldl (applyFileStep root it none) (st, acc)).1.filesMap q
            = objGet st.filesMap q) := by
  induction mfs generalizing st acc with
  | nil => exact ⟨[], by simp, by simp, rfl, by simp, by simp⟩
  | cons mf rest ih =>
    rw [List.map_cons, List.nodup_cons] at hnd
    obtain ⟨hp, hndr⟩ := hnd
    rw [List.foldl_cons, applyFileStep_none_writes]
    obtain ⟨rest', h1, h2, h3, h4, h5⟩ := ih _ _ hndr
    refine ⟨{ mf with modifiedTime := some st.fs.clock } :: rest', ?_, ?_, ?_, ?_, ?_⟩
    · rw [h1, List.append_assoc]
      rfl
    · rw [List.map_cons, List.map_cons, h2]
      rfl
    · rw [h3]
      rfl
    · intro mf' hmf'
      rcases List.mem_cons.mp hmf' with hh | hh
      · subst hh
        refine ⟨st.fs.clock, rfl, ?_, ?_⟩
        · rw [(h5 _ hp).1]
          exact objGet_objSet_self _ _ _
        · rw [(h5 _ hp).2]
          exact objGet_objSet_self _ _ _
      · exact h4 mf' hh
    · intro q hq
      rw [List.map_cons, List.mem_cons] at hq
      push_neg at hq
      obtain ⟨hq1, hq2⟩ := hq
      have hfr := h5 q hq2
      constructor
      · rw [hfr.1]
        show objGet (fsWrite st.fs (pathJoin3 root it.folderName mf.name) mf.content).files q
          = objGet st.fs.files q
        unfold fsWrite
        exact objGet_objSet_other _ _ _ _ hq1
      · rw [hfr.2]
        exact objGet_objSet_other _ _ _ _ hq1

def manifestPaths (root : String) (files : List (String × ManifestItem)) : List String :=
  (files.map (fun p => p.2.files.map (fun mf => pathJoin3 root p.2.folderName mf.name))).flatten

theorem manifestPaths_cons (root : String) (p : String × ManifestItem)
    (rest : List (String × ManifestItem)) :
    manifestPaths root (p :: rest)
      = p.2.files.map (fun mf => pathJoin3 root p.2.folderName mf.name)
        ++ manifestPaths root rest := by
  simp [manifestPaths]

/-- Every file of every listed item is on disk with exactly its recorded
mtime. -/
def RecP (root : String) (fs : FS) (files : List (String × ManifestItem)) : Prop :=
  ∀ p ∈ files, ∀ mf ∈ p.2.files,
    fsIsFile fs (pathJoin3 root p.2.folderName mf.name) = true
    ∧ mf.modifiedTime = some (fsStatM fs (pathJoin3 root p.2.folderName mf.name))

theorem map_name_of_eraseMT (l l' : List ManifestFile)
    (h : l.map eraseMT = l'.map eraseMT) (f : String → String) :
    l.map (fun mf => f mf.name) = l'.map (fun mf => f mf.name) := by
  have h1 : ∀ ls : List ManifestFile,
      ls.map (fun mf => f mf.name) = (ls.map eraseMT).map (fun mf => f mf.name) := by
    intro ls
    rw [List.map_map]
    rfl
  rw [h1 l, h1 l', h]

/-- Characterisation of the item loop of `applyManifest` when the
previous manifest is empty: every file of every item is written; the
returned entries carry matching disk mtimes, and untouched paths keep
their contents. -/
theorem outer_fold_spec (root : String) (files : List (String × ManifestItem))
    (st : ApplyState) (done : List (String × ManifestItem))
    (hnd : (manifestPaths root files).Nodup) :
    ∃ files' : List (String × ManifestItem),
      (files.foldl (applyItemStep root []) (st, done)).2 = done ++ files'
      ∧ files'.map (fun p => (p.1, eraseItemMT p.2))
          = files.map (fun p => (p.1, eraseItemMT p.2))
      ∧ (files.foldl (applyItemStep root []) (st, done)).1.fs.dirs = st.fs.dirs
      ∧ RecP root (files.foldl (applyItemStep root []) (st, done)).1.fs files'
      ∧ (∀ q, q ∉ manifestPaths root files →
          objGet (files.foldl (applyItemStep root []) (st, done)).1.fs.files q
            = objGet st.fs.files q) := by
  induction files generalizing st done with
  | nil => exact ⟨[], by simp, by simp, rfl, by intro p hp; simp at hp, by simp⟩
  | cons e rest ih =>
    rw [manifestPaths_cons, List.nodup_append] at hnd
    obtain ⟨hnd1, hnd2, hdisj⟩ := hnd
    rw [List.foldl_cons]
    simp only [applyItemStep, objGet_nil]
    obtain ⟨mfs', i1, i2, i3, i4, i5⟩ :=
      inner_fold_spec root e.2 e.2.files st [] hnd1
    simp only [List.nil_append] at i1
    rw [i1]
    obtain ⟨rest', o1, o2, o3, o4, o5⟩ :=
      ih ((e.2.files.foldl (applyFileStep root e.2 none) (st, [])).1)
        (done ++ [(e.1, { e.2 with files := mfs' })]) hnd2
    refine ⟨(e.1, { e.2 with files := mfs' }) :: rest', ?_, ?_, ?_, ?_, ?_⟩
    · rw [o1, List.append_assoc]
      rfl
    · rw [List.map_cons, List.map_cons, o2]
      have : eraseItemMT { e.2 with files := mfs' } = eraseItemMT e.2 := by
        unfold eraseItemMT
        simp only []
        rw [i2]
      rw [this]
    · rw [o3, i3]
    · intro p hp mf hmf
      rcases List.mem_cons.mp hp with hh | hh
      · subst hh
        simp only [] at hmf
        obtain ⟨t, hmt, hobj, _⟩ := i4 mf hmf
        have hpnotin : pathJoin3 root e.2.folderName mf.name ∉ manifestPaths root rest := by
          apply hdisj
          have hnames := map_name_of_eraseMT mfs' e.2.files i2
            (fun nm => pathJoin3 root e.2.folderName nm)
          rw [← hnames]
          exact List.mem_map.mpr ⟨mf, hmf, rfl⟩
        have hframe := o5 _ hpnotin
        constructor
        · rw [fsIsFile_iff]
          exact ⟨_, by rw [hframe]; exact hobj⟩
        · rw [hmt]
          unfold fsStatM
          rw [hframe, hobj]
          rfl
      · exact o4 p hh mf hmf
    · intro q hq
      rw [manifestPaths_cons, List.mem_append] at hq
      push_neg at hq
      rw [o5 q hq.2]
      exact (i5 q hq.1).1

/-- When every file's previous record (looked up by role type) is the
file itself and its recorded mtime matches the disk, the inner loop
skips every file: no write, no counter change. -/
theorem inner_skip (root : String) (it eit : ManifestItem) (mfs : List ManifestFile)
    (st : ApplyState) (acc : List ManifestFile)
    (hfind : ∀ mf ∈ mfs, eit.files.find? (fun f => f.type = mf.type) = some mf)
    (hrec : ∀ mf ∈ mfs,
      fsIsFile st.fs (pathJoin3 root it.folderName mf.name) = true
      ∧ mf.modifiedTime = some (fsStatM st.fs (pathJoin3 root it.folderName mf.name))) :
    (mfs.foldl (applyFileStep root it (some eit)) (st, acc)).1.fs = st.fs
    ∧ (mfs.foldl (applyFileStep root it (some eit)) (st, acc)).1.filesCreated
        = st.filesCreated
    ∧ (mfs.foldl (applyFileStep root it (some eit)) (st, acc)).1.filesUpdated
        = st.filesUpdated := by
  induction mfs generalizing st acc with
  | nil => exact ⟨rfl, rfl, rfl⟩
  | cons mf rest ihm =>
    rw [List.foldl_cons]
    have h1 := hfind mf (List.mem_cons_self _ _)
    have h2 := hrec mf (List.mem_cons_self _ _)
    have hex : fsExists st.fs (pathJoin3 root it.folderName mf.name) = true := by
      unfold fsExists
      rw [h2.1]
      rfl
    have hstep : applyFileStep root it (some eit) (st, acc) mf
        = ({ fs := st.fs,
             filesMap := objSet st.filesMap (pathJoin3 root it.folderName mf.name) it.id,
             filesCreated := st.filesCreated,
             filesUpdated := st.filesUpdated }, acc ++ [mf]) := by
      simp only [applyFileStep, h1, hex]
      simp [h2.2]
    rw [hstep]
    exact ihm _ _ (fun g hg => hfind g (List.mem_cons_of_mem _ hg))
      (fun g hg => hrec g (List.mem_cons_of_mem _ hg))

/-- The skip pass at item level. -/
theorem outer_skip (root : String) (files existing : List (String × ManifestItem))
    (st : ApplyState) (done : List (String × ManifestItem))
    (hsub : ∀ p ∈ files, objGet existing p.2.id = some p.2)
    (hfind : ∀ p ∈ files, ∀ mf ∈ p.2.files,
        p.2.files.find? (fun f => f.type = mf.type) = some mf)
    (hrec : RecP root st.fs files) :
    (files.foldl (applyItemStep root existing) (st, done)).1.fs = st.fs
    ∧ (files.foldl (applyItemStep root existing) (st, done)).1.filesCreated
        = st.filesCreated
    ∧ (files.foldl (applyItemStep root existing) (st, done)).1.filesUpdated
        = st.filesUpdated := by
  induction files generalizing st done with
  | nil => exact ⟨rfl, rfl, rfl⟩
  | cons e rest ihm =>
    rw [List.foldl_cons]
    simp only [applyItemStep, hsub e (List.mem_cons_self _ _)]
    have hinner := inner_skip root e.2 e.2 e.2.files st []
      (hfind e (List.mem_cons_self _ _))
      (fun mf hm => hrec e (List.mem_cons_self _ _) mf hm)
    obtain ⟨hf, hc, hu⟩ := hinner
    have hrest := ihm ((e.2.files.foldl (applyFileStep root e.2 (some e.2)) (st, [])).1)
      (done ++ [(e.1, { e.2 with
        files := (e.2.files.foldl (applyFileStep root e.2 (some e.2)) (st, [])).2 })])
      (fun p hp => hsub p (List.mem_cons_of_mem _ hp))
      (fun p hp => hfind p (List.mem_cons_of_mem _ hp))
      (by rw [hf]; exact fun p hp mf hm => hrec p (List.mem_cons_of_mem _ hp) mf hm)
    refine ⟨?_, ?_, ?_⟩
    · rw [hrest.1, hf]
    · rw [hrest.2.1, hc]
    · rw [hrest.2.2, hu]

/-! Folder-pass and monotonicity lemmas. -/

theorem applyFolderStep_cases (root : String) (acc : FS × Nat) (f : ManifestFolder) :
    applyFolderStep root acc f = acc
    ∨ applyFolderStep root acc f
        = (fsMkdir acc.1 (pathJoin2 root f.folderName), acc.2 + 1) := by
  unfold applyFolderStep
  by_cases h : fsExists acc.1 (pathJoin2 root f.folderName) = true
  · left
    rw [if_pos h]
  · right
    rw [if_neg h]

theorem folder_fold_files (root : String) (folders : List ManifestFolder)
    (acc : FS × Nat) :
    (folders.foldl (applyFolderStep root) acc).1.files = acc.1.files := by
  induction folders generalizing acc with
  | nil => rfl
  | cons g rest ihm =>
    rw [List.foldl_cons]
    rcases applyFolderStep_cases root acc g with h | h <;>
      rw [h, ihm]
    exact fsMkdir_files _ _

theorem folder_fold_exists_mono (root : String) (folders : List ManifestFolder)
    (acc : FS × Nat) (p : String) (h : fsExists acc.1 p = true) :
    fsExists (folders.foldl (applyFolderStep root) acc).1 p = true := by
  induction folders generalizing acc with
  | nil => exact h
  | cons g rest ihm =>
    rw [List.foldl_cons]
    rcases applyFolderStep_cases root acc g with hs | hs <;> rw [hs]
    · exact ihm acc h
    · exact ihm _ (fsExists_mono_mkdir _ _ _ h)

theorem folder_fold_all (root : String) (folders : List ManifestFolder)
    (acc : FS × Nat) :
    ∀ f ∈ folders,
      fsExists (folders.foldl (applyFolderStep root) acc).1
        (pathJoin2 root f.folderName) = true := by
  induction folders generalizing acc with
  | nil => intro f hf; simp at hf
  | cons g rest ihm =>
    intro f hf
    rw [List.foldl_cons]
    rcases List.mem_cons.mp hf with hh | hh
    · subst hh
      apply folder_fold_exists_mono
      by_cases h : fsExists acc.1 (pathJoin2 root f.folderName) = true
      · unfold applyFolderStep
        rw [if_pos h]
        exact h
      · unfold applyFolderStep
        rw [if_neg h]
        exact fsExists_fsMkdir_self _ _
    · exact ihm _ f hh

theorem folder_fold_noop (root : String) (folders : List ManifestFolder)
    (fs : FS) (n : Nat)
    (h : ∀ f ∈ folders, fsExists fs (pathJoin2 root f.folderName) = true) :
    folders.foldl (applyFolderStep root) (fs, n) = (fs, n) := by
  induction folders with
  | nil => rfl
  | cons g rest ihm =>
    rw [List.foldl_cons]
    have hg : applyFolderStep root (fs, n) g = (fs, n) := by
      unfold applyFolderStep
      rw [if_pos (h g (List.mem_cons_self _ _))]
    rw [hg]
    exact ihm (fun f hf => h f (List.mem_cons_of_mem _ hf))

theorem applyFileStep_fs_cases (root : String) (it : ManifestItem)
    (ex : Option ManifestItem) (stacc : ApplyState × List ManifestFile)
    (mf : ManifestFile) :
    (applyFileStep root it ex stacc mf).1.fs = stacc.1.fs
    ∨ ∃ q c, (applyFileStep root it ex stacc mf).1.fs = fsWrite stacc.1.fs q c := by
  simp only [applyFileStep]
  split
  · right
    exact ⟨_, _, rfl⟩
  · split
    · right
      exact ⟨_, _, rfl⟩
    · left
      rfl

theorem inner_exists_mono (root : String) (it : ManifestItem)
    (ex : Option ManifestItem) (mfs : List ManifestFile) (st : ApplyState)
    (acc : List ManifestFile) (p : String) (h : fsExists st.fs p = true) :
    fsExists (mfs.foldl (applyFileStep root it ex) (st, acc)).1.fs p = true := by
  induction mfs generalizing st acc with
  | nil => exact h
  | cons mf rest ihm =>
    rw [List.foldl_cons]
    have hh : fsExists (applyFileStep root it ex (st, acc) mf).1.fs p = true := by
      rcases applyFileStep_fs_cases root it ex (st, acc) mf with hc | ⟨q, c, hc⟩ <;>
        rw [hc]
      · exact h
      · exact fsExists_mono_write _ _ _ _ h
    have := ihm (applyFileStep root it ex (st, acc) mf).1
      (applyFileStep root it ex (st, acc) mf).2 hh
    exact this

theorem outer_exists_mono (root : String)
    (existing : List (String × ManifestItem))
    (files : List (String × ManifestItem)) (st : ApplyState)
    (done : List (String × ManifestItem)) (p : String)
    (h : fsExists st.fs p = true) :
    fsExists (files.foldl (applyItemStep root existing) (st, done)).1.fs p = true := by
  induction files generalizing st done with
  | nil => exact h
  | cons e rest ihm =>
    rw [List.foldl_cons]
    simp only [applyItemStep]
    exact ihm _ _ (inner_exists_mono root e.2 _ e.2.files st [] p h)

/-! Self-lookup lemmas and transfers. -/

theorem objGet_self_of_nodup {α : Type} (files : List (String × α))
    (hnd : (files.map (fun p => p.1)).Nodup) :
    ∀ p ∈ files, objGet files p.1 = some p.2 := by
  induction files with
  | nil => intro p hp; simp at hp
  | cons a rest ihm =>
    rw [List.map_cons, List.nodup_cons] at hnd
    intro p hp
    rcases List.mem_cons.mp hp with hh | hh
    · subst hh
      unfold objGet
      rw [List.find?_cons_of_pos _ (by simp)]
      rfl
    · have hne : a.1 ≠ p.1 := by
        intro he
        exact hnd.1 (he ▸ List.mem_map.mpr ⟨p, hh, rfl⟩)
      unfold objGet
      rw [List.find?_cons_of_neg _ (by simpa using hne)]
      exact ihm hnd.2 p hh

theorem find_self_of_types_nodup (l : List ManifestFile)
    (hnd : (l.map (fun f => f.type)).Nodup) :
    ∀ mf ∈ l, l.find? (fun f => f.type = mf.type) = some mf := by
  induction l with
  | nil => intro mf hm; simp at hm
  | cons a rest ihm =>
    rw [List.map_cons, List.nodup_cons] at hnd
    intro mf hm
    rcases List.mem_cons.mp hm with hh | hh
    · subst hh
      rw [List.find?_cons_of_pos _ (by simp)]
    · have hne : a.type ≠ mf.type := by
        intro he
        exact hnd.1 (he ▸ List.mem_map.mpr ⟨mf, hh, rfl⟩)
      rw [List.find?_cons_of_neg _ (by simpa using hne)]
      exact ihm hnd.2 mf hh

theorem pairwise_transfer {α β : Type} (g : α → β) (P : β → Prop)
    (l l' : List α) (h : l.map g = l'.map g) (hP : ∀ x ∈ l', P (g x)) :
    ∀ x ∈ l, P (g x) := by
  intro x hx
  have hmem : g x ∈ l.map g := List.mem_map.mpr ⟨x, hx, rfl⟩
  rw [h] at hmem
  obtain ⟨y, hy, hgy⟩ := List.mem_map.mp hmem
  rw [← hgy]
  exact hP y hy

theorem RecP_files_eq (root : String) (fs fs' : FS)
    (hfe : fs'.files = fs.files) (l : List (String × ManifestItem))
    (h : RecP root fs l) : RecP root fs' l := by
  intro p hp mf hm
  have := h p hp mf hm
  unfold fsIsFile fsStatM at this ⊢
  rw [hfe]
  exact this

/-- C5 amended: when the first call starts from an empty previous
manifest (so every file is written and every recorded mtime captured),
the manifest's keys are its items' ids without duplicates, role types
are unique within each item, and the projected file paths are pairwise
distinct, a second `applyManifest` with the post-first-call manifest as
both arguments and the unchanged filesystem reports
`totalModified = 0`. -/
theorem apply_twice_noop (M : Manifest) (root : String) (fs0 : FS)
    (hkeys : (M.files.map (fun p => p.1)).Nodup)
    (hids : ∀ p ∈ M.files, p.1 = p.2.id)
    (htypes : ∀ p ∈ M.files, (p.2.files.map (fun f => f.type)).Nodup)
    (hpaths : (manifestPaths root M.files).Nodup) :
    (applyManifest (applyManifest M emptyManifest root fs0).2.1
        (applyManifest M emptyManifest root fs0).2.1 root
        (applyManifest M emptyManifest root fs0).1).2.2.1.totalModified = 0 := by
  simp only [applyManifest_char, emptyManifest]
  obtain ⟨files₁, e1, e2, e3, e4, e5⟩ :=
    outer_fold_spec root M.files
      { fs := ((objValues M.folders).foldl (applyFolderStep root)
          (if fsExists fs0 root then fs0 else fsMkdir fs0 root, 0)).1,
        filesMap := [], filesCreated := 0, filesUpdated := 0 } [] hpaths
  simp only [List.nil_append] at e1
  rw [e1]
  set FS1 := (M.files.foldl (applyItemStep root [])
      ({ fs := ((objValues M.folders).foldl (applyFolderStep root)
          (if fsExists fs0 root then fs0 else fsMkdir fs0 root, 0)).1,
         filesMap := [], filesCreated := 0, filesUpdated := 0 }, [])).1.fs with hFS1
  set fs1' := if fsExists FS1 root then FS1 else fsMkdir FS1 root with hfs1'
  have hfall : ∀ f ∈ objValues M.folders,
      fsExists fs1' (pathJoin2 root f.folderName) = true := by
    intro f hf
    have h1 := folder_fold_all root (objValues M.folders)
      (if fsExists fs0 root then fs0 else fsMkdir fs0 root, 0) f hf
    have h2 : fsExists FS1 (pathJoin2 root f.folderName) = true := by
      rw [hFS1]
      exact outer_exists_mono root [] M.files _ [] _ h1
    rw [hfs1']
    by_cases hr : fsExists FS1 root = true
    · rw [if_pos hr]
      exact h2
    · rw [if_neg hr]
      exact fsExists_mono_mkdir _ _ _ h2
  have hfo' : (objValues M.folders).foldl (applyFolderStep root) (fs1', 0)
      = (fs1', 0) := folder_fold_noop root _ fs1' 0 hfall
  rw [hfo']
  have hcorr : ∀ p ∈ files₁, ∃ y ∈ M.files,
      y.1 = p.1 ∧ eraseItemMT y.2 = eraseItemMT p.2 := by
    intro p hp
    have hmem : (p.1, eraseItemMT p.2)
        ∈ files₁.map (fun q => (q.1, eraseItemMT q.2)) :=
      List.mem_map.mpr ⟨p, hp, rfl⟩
    rw [e2] at hmem
    obtain ⟨y, hy, hgy⟩ := List.mem_map.mp hmem
    rw [Prod.mk.injEq] at hgy
    exact ⟨y, hy, hgy.1, hgy.2⟩
  have htr : ∀ it : ManifestItem,
      (eraseItemMT it).files.map (fun f => f.type)
        = it.files.map (fun f => f.type) := by
    intro it
    show (it.files.map eraseMT).map (fun f => f.type) = _
    rw [List.map_map]
    apply List.map_congr_left
    intro f _
    rfl
  have hids₁ : ∀ p ∈ files₁, p.1 = p.2.id := by
    intro p hp
    obtain ⟨y, hy, hk, he⟩ := hcorr p hp
    have hid := congrArg (fun it => it.id) he
    simp only [] at hid
    rw [← hk]
    rw [show p.2.id = y.2.id from hid.symm]
    exact hids y hy
  have htypes₁ : ∀ p ∈ files₁, (p.2.files.map (fun f => f.type)).Nodup := by
    intro p hp
    obtain ⟨y, hy, hk, he⟩ := hcorr p hp
    have : y.2.files.map (fun f => f.type) = p.2.files.map (fun f => f.type) := by
      rw [← htr y.2, ← htr p.2, he]
    rw [← this]
    exact htypes y hy
  have hkmap : files₁.map (fun p => p.1) = M.files.map (fun p => p.1) := by
    have h := congrArg (List.map Prod.fst) e2
    simpa [List.map_map, Function.comp] using h
  have hkeys₁ : (files₁.map (fun p => p.1)).Nodup := by
    rw [hkmap]
    exact hkeys
  have hsub₁ : ∀ p ∈ files₁, objGet files₁ p.2.id = some p.2 := by
    intro p hp
    rw [← hids₁ p hp]
    exact objGet_self_of_nodup files₁ hkeys₁ p hp
  have hfind₁ : ∀ p ∈ files₁, ∀ mf ∈ p.2.files,
      p.2.files.find? (fun f => f.type = mf.type) = some mf :=
    fun p hp => find_self_of_types_nodup _ (htypes₁ p hp)
  have hrec₂ : RecP root fs1' files₁ := by
    rw [hfs1']
    by_cases hr : fsExists FS1 root = true
    · rw [if_pos hr]
      exact e4
    · rw [if_neg hr]
      exact RecP_files_eq root FS1 _ (fsMkdir_files _ _) files₁ e4
  have hskip := outer_skip root files₁ files₁
    { fs := (fs1', 0).1, filesMap := [], filesCreated := 0, filesUpdated := 0 } []
    hsub₁ hfind₁ hrec₂
  rw [hskip.2.1, hskip.2.2]
  rfl

theorem apply_twice_noop_witness :
    ((c5M.files.map (fun p => p.1)).Nodup
        ∧ (∀ p ∈ c5M.files, p.1 = p.2.id)
        ∧ (∀ p ∈ c5M.files, (p.2.files.map (fun f => f.type)).Nodup)
        ∧ (manifestPaths "root" c5M.files).Nodup)
      ∧ (applyManifest (applyManifest c5M emptyManifest "root" c5Fs).2.1
          (applyManifest c5M emptyManifest "root" c5Fs).2.1 "root"
          (applyManifest c5M emptyManifest "root" c5Fs).1).2.2.1.totalModified = 0 :=
  ⟨⟨by decide, by decide, by decide, by decide⟩,
   apply_twice_noop c5M "root" c5Fs (by decide) (by decide) (by decide) (by decide)⟩

/-! ### C4 — round trip: project, apply, reverse-map -/

theorem foldl_opt_append {α β : Type} (f : α → Option β) (l : List α)
    (init : List β) :
    l.foldl (fun acc x => acc ++ (f x).toList) init = init ++ l.filterMap f := by
  induction l generalizing init with
  | nil => simp
  | cons a l ih =>
    rw [List.foldl_cons, ih]
    cases hf : f a <;> simp [List.filterMap_cons, hf]

/-- The per-role file builder of `flows2Manifest`'s inner loop. -/
def roleFile (it : FlowItem) (b : String) (p : Role × String) : Option ManifestFile :=
  match getRole it p.1 with
  | none => none
  | some content =>
    if content ≠ "" ∧ strTrim content ≠ "" then
      some { type := p.1, name := b ++ p.2, content := content, modifiedTime := none }
    else none

theorem itemFiles_eq (it : FlowItem) (b : String) :
    itemFiles it b = flowFilesProperties.filterMap (roleFile it b) := by
  unfold itemFiles
  have hstep : (fun (fs : List ManifestFile) (p : Role × String) =>
      match getRole it p.1 with
      | none => fs
      | some content =>
        if content ≠ "" ∧ strTrim content ≠ "" then
          fs ++ [{ type := p.1, name := b ++ p.2, content := content,
                   modifiedTime := none }]
        else fs)
      = (fun acc x => acc ++ (roleFile it b x).toList) := by
    funext acc p
    unfold roleFile
    cases getRole it p.1 with
    | none => simp
    | some content =>
      by_cases h : content ≠ "" ∧ strTrim content ≠ "" <;> simp [h]
  rw [hstep]
  simpa using foldl_opt_append (roleFile it b) flowFilesProperties []

theorem itemFiles_mem (it : FlowItem) (b : String) (mf : ManifestFile)
    (hm : mf ∈ itemFiles it b) :
    ∃ p ∈ flowFilesProperties, mf.type = p.1 ∧ mf.name = b ++ p.2
      ∧ getRole it p.1 = some mf.content := by
  rw [itemFiles_eq] at hm
  obtain ⟨p, hp, hf⟩ := List.mem_filterMap.mp hm
  unfold roleFile at hf
  split at hf
  · exact absurd hf (by simp)
  · split at hf
    · rename_i content hg hc
      injection hf with hf
      subst hf
      exact ⟨p, hp, rfl, rfl, hg⟩
    · exact absurd hf (by simp)

theorem filterMap_map_sublist {α β γ : Type} (f : α → Option β) (nm : β → γ)
    (h : α → γ) (l : List α) (hfh : ∀ x y, f x = some y → nm y = h x) :
    ((l.filterMap f).map nm).Sublist (l.map h) := by
  induction l with
  | nil => simp
  | cons a l ih =>
    rw [List.filterMap_cons]
    cases hf : f a with
    | none =>
      rw [List.map_cons]
      exact ih.cons _
    | some y =>
      rw [List.map_cons, List.map_cons, hfh a y hf]
      exact ih.cons₂ _

theorem sanitizeName_sep_free (nm fo : String) (m : List (String × Nat)) :
    '/' ∉ ((sanitizeName nm fo m).1).data := by
  unfold sanitizeName
  by_cases h : (mget m (pathJoin2 fo (replaceSeps nm))).getD 0 ≠ 0
  · rw [if_pos h]
    intro hc
    simp only [String.data_append, List.mem_append] at hc
    rcases hc with ((hc | hc) | hc) | hc
    · exact (replaceSeps_sep_free nm).1 hc
    · simp at hc
    · exact (natToString_sep_free _).1 hc
    · simp at hc
  · rw [if_neg h]
    exact (replaceSeps_sep_free nm).1

theorem pathJoin2_ne_empty (a b : String) : pathJoin2 a b ≠ "" := by
  unfold pathJoin2
  by_cases ha : a = ""
  · rw [if_pos ha]
    by_cases hb : b = ""
    · rw [if_pos hb]
      decide
    · rw [if_neg hb]
      exact hb
  · rw [if_neg ha]
    by_cases hb : b = ""
    · rw [if_pos hb]
      exact ha
    · rw [if_neg hb]
      intro h
      have hlen := congrArg String.length h
      rw [String.length_append, String.length_append] at hlen
      have h1 : ("/" : String).length = 1 := by decide
      have h0 : ("" : String).length = 0 := by decide
      rw [h1, h0] at hlen
      omega

theorem basename_append (X name : String) (hsep : '/' ∉ name.data) :
    basename (X ++ "/" ++ name) = name := by
  unfold basename
  rw [String.data_append, String.data_append]
  have hd : ("/" : String).data = ['/'] := rfl
  rw [hd, List.reverse_append, List.reverse_append]
  have htw : name.data.reverse.takeWhile (fun c => decide (c ≠ '/'))
      = name.data.reverse := by
    rw [List.takeWhile_eq_self_iff]
    intro c hc
    rw [List.mem_reverse] at hc
    simp only [decide_eq_true_eq]
    intro he
    exact hsep (he ▸ hc)
  rw [List.takeWhile_append, htw, if_pos rfl]
  have h2 : (['/'].reverse ++ X.data.reverse).takeWhile
      (fun c => decide (c ≠ '/')) = [] := by
    simp [List.takeWhile]
  rw [h2, List.append_nil, List.reverse_reverse]

theorem basename_pathJoin3 (root fo name : String) (hne : name ≠ "")
    (hsep : '/' ∉ name.data) :
    basename (pathJoin3 root fo name) = name := by
  have hXne := pathJoin2_ne_empty root fo
  have hX : pathJoin2 (pathJoin2 root fo) name = pathJoin2 root fo ++ "/" ++ name := by
    generalize hG : pathJoin2 root fo = X at hXne ⊢
    unfold pathJoin2
    rw [if_neg hXne, if_neg hne]
  unfold pathJoin3
  rw [hX]
  exact basename_append _ _ hsep

theorem find_self_of_names_nodup (l : List ManifestFile)
    (hnd : (l.map (fun f => f.name)).Nodup) :
    ∀ mf ∈ l, l.find? (fun f => f.name = mf.name) = some mf := by
  induction l with
  | nil => intro mf hm; simp at hm
  | cons a rest ihm =>
    rw [List.map_cons, List.nodup_cons] at hnd
    intro mf hm
    rcases List.mem_cons.mp hm with hh | hh
    · subst hh
      rw [List.find?_cons_of_pos _ (by simp)]
    · have hne : a.name ≠ mf.name := by
        intro he
        exact hnd.1 (he ▸ List.mem_map.mpr ⟨mf, hh, rfl⟩)
      rw [List.find?_cons_of_neg _ (by simpa using hne)]
      exact ihm hnd.2 mf hh

theorem updateFirst_eq_self {α : Type} (p : α → Bool) (f : α → α)
    (l : List α) (a : α) (hfind : l.find? p = some a) (hfa : f a = a) :
    updateFirst p f l = l := by
  induction l with
  | nil => rfl
  | cons x rest ihm =>
    unfold updateFirst
    by_cases hx : p x = true
    · rw [List.find?_cons_of_pos _ hx] at hfind
      injection hfind with hfind
      subst hfind
      rw [if_pos hx, hfa]
    · rw [List.find?_cons_of_neg _ hx] at hfind
      rw [if_neg hx, ihm hfind]

theorem setRole_getRole (it : FlowItem) (r : Role) (v : String)
    (h : getRole it r = some v) : setRole it r v = it := by
  cases r <;>
    (unfold setRole
     unfold getRole at h
     rw [← h])

theorem objSet_mem {α : Type} (m : List (String × α)) (k : String) (v : α)
    (e : String × α) (he : e ∈ objSet m k v) : e = (k, v) ∨ e ∈ m := by
  unfold objSet at he
  by_cases hany : m.any (fun p => p.1 = k) = true
  · rw [if_pos hany] at he
    obtain ⟨x, hx, hxe⟩ := List.mem_map.mp he
    by_cases hxk : x.1 = k
    · rw [if_pos hxk] at hxe
      left
      exact hxe.symm
    · rw [if_neg hxk] at hxe
      right
      exact hxe ▸ hx
  · rw [if_neg hany] at he
    rcases List.mem_append.mp he with h | h
    · right
      exact h
    · left
      simpa using h

theorem not_any_iff_keys {α : Type} (m : List (String × α)) (k : String) :
    m.any (fun p => p.1 = k) = false ↔ k ∉ m.map (fun p => p.1) := by
  constructor
  · intro h hmem
    obtain ⟨x, hx, hxk⟩ := List.mem_map.mp hmem
    have : m.any (fun p => p.1 = k) = true := by
      rw [List.any_eq_true]
      exact ⟨x, hx, by simp [hxk]⟩
    rw [h] at this
    exact Bool.false_ne_true this
  · intro h
    cases hany : m.any (fun p => p.1 = k) with
    | false => rfl
    | true =>
      rw [List.any_eq_true] at hany
      obtain ⟨x, hx, hxk⟩ := hany
      simp only [decide_eq_true_eq] at hxk
      exact absurd (List.mem_map.mpr ⟨x, hx, hxk⟩) h

theorem string_append_cancel (b e1 e2 : String) (h : b ++ e1 = b ++ e2) :
    e1 = e2 := by
  have hd := congrArg String.data h
  rw [String.data_append, String.data_append] at hd
  have := List.append_cancel_left hd
  cases e1
  cases e2
  simp only at this
  rw [this]

theorem append_ne_empty_of_right (b e : String) (he : e ≠ "") : b ++ e ≠ "" := by
  intro h
  have hlen := congrArg String.length h
  rw [String.length_append] at hlen
  have h0 : ("" : String).length = 0 := by decide
  rw [h0] at hlen
  apply he
  have : e.length = 0 := by omega
  cases e with
  | mk l =>
    have hl : l.length = 0 := this
    rw [List.length_eq_zero] at hl
    rw [show ("" : String) = String.mk [] from rfl]
    exact congrArg String.mk hl

theorem itemFiles_names_nodup (it : FlowItem) (b : String) :
    ((itemFiles it b).map (fun f => f.name)).Nodup := by
  have hsub := filterMap_map_sublist (roleFile it b) (fun f => f.name)
    (fun p => b ++ p.2) flowFilesProperties ?_
  · rw [← itemFiles_eq] at hsub
    refine hsub.nodup ?_
    have hmm : flowFilesProperties.map (fun p => b ++ p.2)
        = (flowFilesProperties.map (fun p => p.2)).map (fun e => b ++ e) := by
      rw [List.map_map]
      rfl
    rw [hmm]
    apply List.Nodup.map
    · intro e1 e2 h
      exact string_append_cancel b e1 e2 h
    · decide
  · intro x y hxy
    unfold roleFile at hxy
    split at hxy
    · simp at hxy
    · split at hxy
      · injection hxy with hxy
        rw [← hxy]
      · simp at hxy

theorem itemFiles_name_facts (it : FlowItem) (b : String) (hbsep : '/' ∉ b.data) :
    ∀ mf ∈ itemFiles it b, '/' ∉ mf.name.data ∧ mf.name ≠ "" := by
  intro mf hm
  obtain ⟨p, hp, -, hname, -⟩ := itemFiles_mem it b mf hm
  have hpext : '/' ∉ p.2.data ∧ p.2 ≠ "" := by
    have : ∀ q ∈ flowFilesProperties, '/' ∉ q.2.data ∧ q.2 ≠ "" := by decide
    exact this p hp
  constructor
  · rw [hname]
    rw [String.data_append]
    intro hc
    rcases List.mem_append.mp hc with hc | hc
    · exact hbsep hc
    · exact hpext.1 hc
  · rw [hname]
    exact append_ne_empty_of_right b p.2 hpext.2

theorem find_by_id (flows : List FlowItem)
    (hnd : (flows.map (fun f => f.id)).Nodup) (fl : FlowItem) (hfl : fl ∈ flows) :
    flows.find? (fun f => f.id = fl.id) = some fl := by
  induction flows with
  | nil => simp at hfl
  | cons a rest ihm =>
    rw [List.map_cons, List.nodup_cons] at hnd
    rcases List.mem_cons.mp hfl with hh | hh
    · subst hh
      rw [List.find?_cons_of_pos _ (by simp)]
    · have hne : a.id ≠ fl.id := by
        intro he
        exact hnd.1 (he ▸ List.mem_map.mpr ⟨fl, hh, rfl⟩)
      rw [List.find?_cons_of_neg _ (by simpa using hne)]
      exact ihm hnd.2 hh

/-- Keys after a set: unchanged when the key was present, else appended. -/
theorem objSet_keys {α : Type} (m : List (String × α)) (k : String) (v : α) :
    (objSet m k v).map (fun p => p.1)
      = (if m.any (fun p => p.1 = k) then m.map (fun p => p.1)
         else m.map (fun p => p.1) ++ [k]) := by
  unfold objSet
  by_cases hany : m.any (fun p => p.1 = k) = true
  · rw [if_pos hany, if_pos hany, List.map_map]
    apply List.map_congr_left
    intro p _
    by_cases hp : p.1 = k <;> simp [hp, Function.comp]
  · rw [if_neg hany, if_neg hany]
    simp

/-- Well-formedness of one manifest entry relative to the flows it was
projected from. -/
def EntryInv (flows : List FlowItem) (e : String × ManifestItem) : Prop :=
  e.1 = e.2.id
  ∧ (e.2.files.map (fun f => f.name)).Nodup
  ∧ (∀ mf ∈ e.2.files, '/' ∉ mf.name.data ∧ mf.name ≠ "")
  ∧ ∃ fl ∈ flows, fl.id = e.2.id
      ∧ ∀ mf ∈ e.2.files, getRole fl mf.type = some mf.content

theorem filesPass_inv (allFlows : List FlowItem)
    (folders : List (String × ManifestFolder)) (flows : List FlowItem)
    (hsub : ∀ fl ∈ flows, fl ∈ allFlows)
    (acc : List (String × ManifestItem) × List (String × Nat))
    (hkeys : (acc.1.map (fun p => p.1)).Nodup)
    (hinv : ∀ e ∈ acc.1, EntryInv allFlows e) :
    ((flows.foldl (filesStep folders) acc).1.map (fun p => p.1)).Nodup
    ∧ ∀ e ∈ (flows.foldl (filesStep folders) acc).1, EntryInv allFlows e := by
  induction flows generalizing acc with
  | nil => exact ⟨hkeys, hinv⟩
  | cons fl rest ihm =>
    rw [List.foldl_cons]
    have hsub' : ∀ g ∈ rest, g ∈ allFlows :=
      fun g hg => hsub g (List.mem_cons_of_mem _ hg)
    by_cases hsupp : supportedFlowFileTypes.contains fl.type = true
    · simp only [filesStep, hsupp, if_pos]
      set folderName := (match (match fl.z with
          | none => none
          | some z => if z = "" then none else objGet folders z) with
        | none => "default"
        | some f => if f.folderName = "" then "default" else f.folderName) with hfn
      set r := sanitizeName fl.name folderName acc.2 with hr
      by_cases hfiles : itemFiles fl r.1 ≠ []
      · rw [if_pos hfiles]
        apply ihm hsub'
        · rw [objSet_keys]
          by_cases hany : acc.1.any (fun p => p.1 = fl.id) = true
          · rw [if_pos hany]
            exact hkeys
          · rw [if_neg hany]
            rw [List.nodup_append]
            refine ⟨hkeys, List.nodup_singleton _, ?_⟩
            intro x hx hx2
            rw [List.mem_singleton] at hx2
            subst hx2
            rw [Bool.not_eq_true] at hany
            exact (not_any_iff_keys acc.1 fl.id).mp hany hx
        · intro e he
          rcases objSet_mem acc.1 fl.id _ e he with hh | hh
          · subst hh
            refine ⟨rfl, ?_, ?_, fl, hsub fl (List.mem_cons_self _ _), rfl, ?_⟩
            · exact itemFiles_names_nodup fl r.1
            · exact itemFiles_name_facts fl r.1 (by rw [hr]; exact sanitizeName_sep_free _ _ _)
            · intro mf hm
              obtain ⟨p, hp, ht, hn, hg⟩ := itemFiles_mem fl r.1 mf hm
              rw [ht]
              exact hg
          · exact hinv e hh
      · rw [if_neg hfiles]
        exact ihm hsub' (acc.1, r.2) hkeys hinv
    · simp only [filesStep, hsupp]
      rw [if_neg (by simpa using hsupp)]
      exact ihm hsub' acc hkeys hinv

/-- Coherence of the path→id map with the manifest entries and the disk:
every mapped path belongs to an entry whose files (with unambiguous
names) hold the on-disk content under the path's basename. -/
def Coh (root : String) (E : List (String × ManifestItem)) (fs : FS)
    (fm : List (String × String)) : Prop :=
  ∀ p id, objGet fm p = some id →
    ∃ e ∈ E, e.2.id = id
      ∧ (e.2.files.map (fun f => f.name)).Nodup
      ∧ ∃ mf ∈ e.2.files, mf.name = basename p ∧ fsRead fs p = some mf.content

theorem applyFileStep_snd (root : String) (it : ManifestItem)
    (ex : Option ManifestItem) (st : ApplyState) (acc : List ManifestFile)
    (mf : ManifestFile) :
    ∃ x, (applyFileStep root it ex (st, acc) mf).2 = acc ++ [x]
      ∧ eraseMT x = eraseMT mf := by
  simp only [applyFileStep]
  split
  · exact ⟨_, rfl, rfl⟩
  · split
    · exact ⟨_, rfl, rfl⟩
    · exact ⟨_, rfl, rfl⟩

theorem inner_shape (root : String) (it : ManifestItem)
    (ex : Option ManifestItem) (mfs : List ManifestFile) (st : ApplyState)
    (acc : List ManifestFile) :
    ∃ mfs', (mfs.foldl (applyFileStep root it ex) (st, acc)).2 = acc ++ mfs'
      ∧ mfs'.map eraseMT = mfs.map eraseMT := by
  induction mfs generalizing st acc with
  | nil => exact ⟨[], by simp, rfl⟩
  | cons mf rest ihm =>
    rw [List.foldl_cons]
    obtain ⟨x, hx, hex⟩ := applyFileStep_snd root it ex st acc mf
    obtain ⟨rest', h1, h2⟩ := ihm (applyFileStep root it ex (st, acc) mf).1
      (applyFileStep root it ex (st, acc) mf).2
    refine ⟨x :: rest', ?_, ?_⟩
    · rw [h1, hx, List.append_assoc]
      rfl
    · rw [List.map_cons, List.map_cons, h2, hex]
  
theorem outer_shape (root : String) (ex : List (String × ManifestItem))
    (files : List (String × ManifestItem)) (st : ApplyState)
    (done : List (String × ManifestItem)) :
    ∃ files', (files.foldl (applyItemStep root ex) (st, done)).2 = done ++ files'
      ∧ files'.map (fun p => (p.1, eraseItemMT p.2))
          = files.map (fun p => (p.1, eraseItemMT p.2)) := by
  induction files generalizing st done with
  | nil => exact ⟨[], by simp, rfl⟩
  | cons e rest ihm =>
    rw [List.foldl_cons]
    simp only [applyItemStep]
    obtain ⟨mfs', hi1, hi2⟩ :=
      inner_shape root e.2 (objGet ex e.2.id) e.2.files st []
    simp only [List.nil_append] at hi1
    rw [hi1]
    obtain ⟨rest', h1, h2⟩ := ihm
      ((e.2.files.foldl (applyFileStep root e.2 (objGet ex e.2.id)) (st, [])).1)
      (done ++ [(e.1, { e.2 with files := mfs' })])
    refine ⟨(e.1, { e.2 with files := mfs' }) :: rest', ?_, ?_⟩
    · rw [h1, List.append_assoc]
      rfl
    · rw [List.map_cons, List.map_cons, h2]
      have he : eraseItemMT { e.2 with files := mfs' } = eraseItemMT e.2 := by
        unfold eraseItemMT
        simp only []
        rw [hi2]
      rw [he]

theorem map_of_eraseMT_eq {γ : Type} (l l' : List ManifestFile)
    (h : l.map eraseMT = l'.map eraseMT) (g : ManifestFile → γ)
    (hg : ∀ f, g (eraseMT f) = g f) : l.map g = l'.map g := by
  have h1 : ∀ ls : List ManifestFile, ls.map g = (ls.map eraseMT).map g := by
    intro ls
    rw [List.map_map]
    apply List.map_congr_left
    intro a _
    exact (hg a).symm
  rw [h1 l, h1 l', h]

theorem mem_eraseMT_transfer (l l' : List ManifestFile)
    (h : l'.map eraseMT = l.map eraseMT) (mf' : ManifestFile)
    (hmem : mf' ∈ l') :
    ∃ mf ∈ l, mf.type = mf'.type ∧ mf.content = mf'.content
      ∧ mf.name = mf'.name := by
  have h1 : eraseMT mf' ∈ l.map eraseMT := by
    rw [← h]
    exact List.mem_map_of_mem _ hmem
  obtain ⟨mf, hmf, heq⟩ := List.mem_map.mp h1
  refine ⟨mf, hmf, ?_, ?_, ?_⟩
  · have := congrArg (fun f => f.type) heq
    simpa [eraseMT] using this
  · have := congrArg (fun f => f.content) heq
    simpa [eraseMT] using this
  · have := congrArg (fun f => f.name) heq
    simpa [eraseMT] using this

theorem inner_coh_aux (root : String) (it : ManifestItem)
    (mfs : List ManifestFile) (st0 : ApplyState) :
    ∀ (st : ApplyState) (acc : List ManifestFile),
    (∀ mf ∈ mfs, '/' ∉ mf.name.data ∧ mf.name ≠ "") →
    (∀ p id, objGet st.filesMap p = some id →
        (∃ mf ∈ acc, mf.name = basename p ∧ id = it.id
            ∧ fsRead st.fs p = some mf.content)
        ∨ (objGet st0.filesMap p = some id
            ∧ fsRead st.fs p = fsRead st0.fs p)) →
    (∀ p id,
      objGet (mfs.foldl (applyFileStep root it none) (st, acc)).1.filesMap p
        = some id →
        (∃ mf ∈ (mfs.foldl (applyFileStep root it none) (st, acc)).2,
            mf.name = basename p ∧ id = it.id
            ∧ fsRead (mfs.foldl (applyFileStep root it none) (st, acc)).1.fs p
                = some mf.content)
        ∨ (objGet st0.filesMap p = some id
            ∧ fsRead (mfs.foldl (applyFileStep root it none) (st, acc)).1.fs p
                = fsRead st0.fs p)) := by
  induction mfs with
  | nil =>
    intro st acc _ hinv p id hget
    rcases hinv p id hget with ⟨mf, hmf, h1, h2, h3⟩ | ⟨h1, h2⟩
    · exact Or.inl ⟨mf, hmf, h1, h2, h3⟩
    · exact Or.inr ⟨h1, h2⟩
  | cons mf rest ihm =>
    intro st acc hfacts hinv
    rw [List.foldl_cons, applyFileStep_none_writes]
    apply ihm
    · intro x hx
      exact hfacts x (List.mem_cons_of_mem _ hx)
    · intro p id hget
      simp only [] at hget
      by_cases hp : p = pathJoin3 root it.folderName mf.name
      · subst hp
        rw [objGet_objSet_self] at hget
        injection hget with hid
        left
        refine ⟨{ mf with modifiedTime := some st.fs.clock }, ?_, ?_, hid.symm, ?_⟩
        · exact List.mem_append_right _ (List.mem_singleton.mpr rfl)
        · exact (basename_pathJoin3 root it.folderName mf.name
            (hfacts mf (List.mem_cons_self _ _)).2
            (hfacts mf (List.mem_cons_self _ _)).1).symm
        · exact fsRead_fsWrite_self st.fs _ _
      · rw [objGet_objSet_other _ _ _ _ hp] at hget
        rcases hinv p id hget with ⟨mfa, hmfa, h1, h2, h3⟩ | ⟨h1, h2⟩
        · left
          refine ⟨mfa, List.mem_append_left _ hmfa, h1, h2, ?_⟩
          rw [fsRead_fsWrite_other st.fs _ _ _ hp]
          exact h3
        · right
          refine ⟨h1, ?_⟩
          rw [fsRead_fsWrite_other st.fs _ _ _ hp]
          exact h2

theorem inner_coherent (root : String) (E : List (String × ManifestItem))
    (k : String) (it : ManifestItem) (st : ApplyState)
    (hnames : (it.files.map (fun f => f.name)).Nodup)
    (hfacts : ∀ mf ∈ it.files, '/' ∉ mf.name.data ∧ mf.name ≠ "")
    (hcoh : Coh root E st.fs st.filesMap) :
    Coh root (E ++ [(k, { it with files :=
        (it.files.foldl (applyFileStep root it none) (st, [])).2 })])
      (it.files.foldl (applyFileStep root it none) (st, [])).1.fs
      (it.files.foldl (applyFileStep root it none) (st, [])).1.filesMap := by
  intro p id hget
  have hinit : ∀ p' id', objGet st.filesMap p' = some id' →
      (∃ mf ∈ ([] : List ManifestFile), mf.name = basename p' ∧ id' = it.id
          ∧ fsRead st.fs p' = some mf.content)
      ∨ (objGet st.filesMap p' = some id'
          ∧ fsRead st.fs p' = fsRead st.fs p') := by
    intro p' id' hg'
    exact Or.inr ⟨hg', rfl⟩
  have haux := inner_coh_aux root it it.files st st [] hfacts hinit p id hget
  obtain ⟨mfs', hshape, hmapE⟩ := inner_shape root it none it.files st []
  simp only [List.nil_append] at hshape
  have hnames' : (((it.files.foldl (applyFileStep root it none)
      (st, [])).2).map (fun f => f.name)).Nodup := by
    rw [hshape,
      map_of_eraseMT_eq mfs' it.files hmapE (fun f => f.name) (fun f => rfl)]
    exact hnames
  rcases haux with ⟨mf, hmf, h1, h2, h3⟩ | ⟨h1, h2⟩
  · refine ⟨(k, { it with files :=
        (it.files.foldl (applyFileStep root it none) (st, [])).2 }),
        List.mem_append_right _ (List.mem_singleton.mpr rfl), h2.symm,
        hnames', mf, hmf, h1, h3⟩
  · obtain ⟨e, he, hid, hnd, mf2, hmf2, hname2, hread2⟩ := hcoh p id h1
    refine ⟨e, List.mem_append_left _ he, hid, hnd, mf2, hmf2, hname2, ?_⟩
    rw [h2]
    exact hread2

theorem outer_coherent (root : String) (files : List (String × ManifestItem))
    (st : ApplyState) (done : List (String × ManifestItem))
    (hok : ∀ e ∈ files, ((e.2.files.map (fun f => f.name)).Nodup
        ∧ ∀ mf ∈ e.2.files, '/' ∉ mf.name.data ∧ mf.name ≠ ""))
    (hcoh : Coh root done st.fs st.filesMap) :
    Coh root (files.foldl (applyItemStep root []) (st, done)).2
      (files.foldl (applyItemStep root []) (st, done)).1.fs
      (files.foldl (applyItemStep root []) (st, done)).1.filesMap := by
  induction files generalizing st done with
  | nil => exact hcoh
  | cons e rest ihm =>
    rw [List.foldl_cons]
    simp only [applyItemStep, objGet_nil]
    apply ihm
    · intro x hx
      exact hok x (List.mem_cons_of_mem _ hx)
    · exact inner_coherent root done e.1 e.2 st
        (hok e (List.mem_cons_self _ _)).1
        (hok e (List.mem_cons_self _ _)).2 hcoh

theorem objGet_mem {α : Type} (m : List (String × α)) (k : String) (v : α)
    (h : objGet m k = some v) : (k, v) ∈ m := by
  unfold objGet at h
  obtain ⟨pr, hfind, hsnd⟩ := Option.map_eq_some'.mp h
  have hmem := List.mem_of_find?_eq_some hfind
  have hpred := List.find?_some hfind
  have hk : pr.1 = k := of_decide_eq_true hpred
  have : (k, v) = pr := by
    rw [← hk, ← hsnd]
  rw [this]
  exact hmem

theorem objGet_any {α : Type} (m : List (String × α)) (k : String) (v : α)
    (h : objGet m k = some v) : m.any (fun p => p.1 = k) = true := by
  unfold objGet at h
  obtain ⟨pr, hfind, -⟩ := Option.map_eq_some'.mp h
  have hmem := List.mem_of_find?_eq_some hfind
  have hpred := List.find?_some hfind
  exact List.any_eq_true.mpr ⟨pr, hmem, hpred⟩

theorem objSet_self_mem {α : Type} (m : List (String × α)) (k : String)
    (v : α) : (k, v) ∈ objSet m k v := by
  unfold objSet
  by_cases hany : m.any (fun p => p.1 = k) = true
  · rw [if_pos hany]
    obtain ⟨x, hx, hxk⟩ := List.any_eq_true.mp hany
    have hmap : (if x.1 = k then (k, v) else x) = (k, v) :=
      if_pos (of_decide_eq_true hxk)
    exact List.mem_map.mpr ⟨x, hx, hmap⟩
  · rw [if_neg hany]
    exact List.mem_append_right _ (List.mem_singleton.mpr rfl)

theorem objSet_mem_other {α : Type} (m : List (String × α)) (k : String)
    (v : α) (e : String × α) (he : e ∈ m) (hne : e.1 ≠ k) :
    e ∈ objSet m k v := by
  unfold objSet
  by_cases hany : m.any (fun p => p.1 = k) = true
  · rw [if_pos hany]
    have hmap : (if e.1 = k then (k, v) else e) = e := if_neg hne
    exact List.mem_map.mpr ⟨e, he, hmap⟩
  · rw [if_neg hany]
    exact List.mem_append_left _ he

theorem updateFirst_map_eq {α β : Type} (p : α → Bool) (f : α → α)
    (g : α → β) (l : List α) (a : α) (hfind : l.find? p = some a)
    (hga : g (f a) = g a) : (updateFirst p f l).map g = l.map g := by
  induction l with
  | nil => rfl
  | cons x rest ihm =>
    unfold updateFirst
    by_cases hx : p x = true
    · rw [List.find?_cons_of_pos _ hx] at hfind
      injection hfind with hxa
      subst hxa
      rw [if_pos hx, List.map_cons, List.map_cons, hga]
    · have hx' : ¬ p x = true := hx
      rw [List.find?_cons_of_neg _ hx'] at hfind
      rw [if_neg hx', List.map_cons, List.map_cons, ihm hfind]

/-- The invariant `manifest2Flows` maintains when the manifest matches the
disk and the flows: path map coherent with entries and disk content, entry
keys unambiguous and equal to the item ids, and every entry's files
reproducing the owning flow item's role fields. -/
def M2FInv (root : String) (flows : List FlowItem)
    (E : List (String × ManifestItem)) (fs : FS)
    (fm : List (String × String)) : Prop :=
  Coh root E fs fm
  ∧ (E.map (fun p => p.1)).Nodup
  ∧ (∀ e ∈ E, e.1 = e.2.id)
  ∧ (∀ e ∈ E, ∃ fl, flows.find? (fun f => f.id = e.2.id) = some fl
      ∧ ∀ mf ∈ e.2.files, getRole fl mf.type = some mf.content)

theorem m2fStep_preserve (root : String) (flows : List FlowItem)
    (E : List (String × ManifestItem)) (fs : FS)
    (fm : List (String × String)) (n : Nat) (pth : String)
    (h : M2FInv root flows E fs fm) :
    (m2fStep fm fs (flows, E, n) pth).1 = flows
    ∧ M2FInv root flows (m2fStep fm fs (flows, E, n) pth).2.1 fs fm := by
  obtain ⟨hcoh, hkeys, hids, hroles⟩ := h
  rcases hq : objGet fm pth with _ | id
  · have hstep : m2fStep fm fs (flows, E, n) pth = (flows, E, n) := by
      simp [m2fStep, hq]
    rw [hstep]
    exact ⟨rfl, hcoh, hkeys, hids, hroles⟩
  · by_cases hid0 : id = ""
    · subst hid0
      have hstep : m2fStep fm fs (flows, E, n) pth = (flows, E, n) := by
        simp [m2fStep, hq]
      rw [hstep]
      exact ⟨rfl, hcoh, hkeys, hids, hroles⟩
    · obtain ⟨eC, heC, hidC, hndC, mf, hmf, hname, hread⟩ := hcoh pth id hq
      have hkeyC : eC.1 = id := by rw [hids eC heC, hidC]
      have hobjE : objGet E id = some eC.2 := by
        rw [← hkeyC]
        exact objGet_self_of_nodup E hkeys eC heC
      have hfindf : eC.2.files.find? (fun f => f.name = basename pth)
          = some mf := by
        have hthis := find_self_of_names_nodup eC.2.files hndC mf hmf
        simp only [hname] at hthis
        exact hthis
      obtain ⟨fl, hfl, hflroles⟩ := hroles eC heC
      have hflfind : flows.find? (fun f => f.id = id) = some fl := by
        rw [← hidC]
        exact hfl
      have hcontent : (fsRead fs pth).getD "" = mf.content := by
        rw [hread]
        rfl
      simp only [m2fStep, hq, hobjE, hfindf, hflfind, if_neg hid0]
      have hga : eraseMT ({ mf with content := (fsRead fs pth).getD "", modifiedTime := some (fsStatM fs pth) }) = eraseMT mf := by
        rw [hcontent]
        rfl
      have hmapsE : (updateFirst (fun f => f.name = basename pth)
          (fun f => { f with content := (fsRead fs pth).getD "", modifiedTime := some (fsStatM fs pth) })
          eC.2.files).map eraseMT = eC.2.files.map eraseMT :=
        updateFirst_map_eq _ _ eraseMT eC.2.files mf hfindf hga
      constructor
      · show updateFirst _ _ flows = flows
        apply updateFirst_eq_self _ _ flows fl hflfind
        rw [hcontent]
        exact setRole_getRole fl mf.type mf.content (hflroles mf hmf)
      · set newFiles := updateFirst (fun f => f.name = basename pth)
          (fun f => { f with content := (fsRead fs pth).getD "", modifiedTime := some (fsStatM fs pth) })
          eC.2.files with hnf
        show M2FInv root flows (objSet E id ({ eC.2 with files := newFiles })) fs fm
        have hnames' : (newFiles.map (fun f => f.name)).Nodup := by
          rw [map_of_eraseMT_eq newFiles eC.2.files hmapsE
            (fun f => f.name) (fun f => rfl)]
          exact hndC
        have hany : E.any (fun p => p.1 = id) = true :=
          objGet_any E id eC.2 hobjE
        refine ⟨?_, ?_, ?_, ?_⟩
        · intro p' id' hg'
          obtain ⟨e', he', hid', hnd', mf2, hmf2, hname2, hread2⟩ :=
            hcoh p' id' hg'
          by_cases hek : e'.1 = id
          · have he2 : e'.2 = eC.2 := by
              have h1 := objGet_self_of_nodup E hkeys e' he'
              rw [hek, hobjE] at h1
              injection h1 with h2
              exact h2.symm
            refine ⟨(id, { eC.2 with files := newFiles }),
              objSet_self_mem E id _, ?_, hnames', ?_⟩
            · show eC.2.id = id'
              rw [← he2]
              exact hid'
            · have hmf2' : mf2 ∈ eC.2.files := by
                rw [← he2]
                exact hmf2
              obtain ⟨mfN, hmfN, htype, hcont, hnameN⟩ :=
                mem_eraseMT_transfer newFiles eC.2.files hmapsE.symm mf2 hmf2'
              refine ⟨mfN, hmfN, ?_, ?_⟩
              · rw [hnameN, hname2]
              · rw [hread2, hcont]
          · exact ⟨e', objSet_mem_other E id _ e' he' hek, hid', hnd',
              mf2, hmf2, hname2, hread2⟩
        · rw [objSet_keys, if_pos hany]
          exact hkeys
        · intro e he
          rcases objSet_mem E id _ e he with heq | hin
          · rw [heq]
            exact hidC.symm
          · exact hids e hin
        · intro e he
          rcases objSet_mem E id _ e he with heq | hin
          · rw [heq]
            refine ⟨fl, hfl, ?_⟩
            intro mfN hmfN
            obtain ⟨mfO, hmfO, htypeO, hcontO, -⟩ :=
              mem_eraseMT_transfer eC.2.files newFiles hmapsE mfN hmfN
            rw [← htypeO, ← hcontO]
            exact hflroles mfO hmfO
          · exact hroles e hin

theorem m2f_fold_noop (root : String) (flows : List FlowItem) (fs : FS)
    (fm : List (String × String)) (changed : List String) :
    ∀ (E : List (String × ManifestItem)) (n : Nat),
    M2FInv root flows E fs fm →
    (changed.foldl (m2fStep fm fs) (flows, E, n)).1 = flows := by
  induction changed with
  | nil =>
    intro E n _
    rfl
  | cons p rest ihm =>
    intro E n h
    rw [List.foldl_cons]
    obtain ⟨h1, h2⟩ := m2fStep_preserve root flows E fs fm n p h
    have hacc : m2fStep fm fs (flows, E, n) p
        = (flows, (m2fStep fm fs (flows, E, n) p).2.1,
           (m2fStep fm fs (flows, E, n) p).2.2) := by
      nth_rewrite 2 [← h1]
      rfl
    rw [hacc]
    exact ihm _ _ h2

theorem roundtrip_inv (flows : List FlowItem)
    (hids : (flows.map (fun f => f.id)).Nodup) (root : String)
    (st : ApplyState) (hmap0 : st.filesMap = []) :
    M2FInv root flows
      ((flows2Manifest flows).files.foldl (applyItemStep root []) (st, [])).2
      ((flows2Manifest flows).files.foldl (applyItemStep root []) (st, [])).1.fs
      ((flows2Manifest flows).files.foldl (applyItemStep root [])
        (st, [])).1.filesMap := by
  have hMfiles : (flows2Manifest flows).files
      = (flows.foldl (filesStep (flows.foldl foldersStep
          ([], [("default", 1)])).1)
          ([], (flows.foldl foldersStep ([], [("default", 1)])).2)).1 := rfl
  obtain ⟨hkeysM, hinvM⟩ := filesPass_inv flows
    (flows.foldl foldersStep ([], [("default", 1)])).1 flows
    (fun fl h => h)
    ([], (flows.foldl foldersStep ([], [("default", 1)])).2)
    (by simp) (by intro e he; simp at he)
  rw [← hMfiles] at hkeysM hinvM
  have hok : ∀ e ∈ (flows2Manifest flows).files,
      ((e.2.files.map (fun f => f.name)).Nodup
        ∧ ∀ mf ∈ e.2.files, '/' ∉ mf.name.data ∧ mf.name ≠ "") := by
    intro e he
    obtain ⟨-, hnodup, hfacts, -⟩ := hinvM e he
    exact ⟨hnodup, hfacts⟩
  have hcoh0 : Coh root [] st.fs st.filesMap := by
    intro p id hget
    rw [hmap0] at hget
    simp [objGet] at hget
  have hcoh := outer_coherent root (flows2Manifest flows).files st [] hok hcoh0
  obtain ⟨files₁, e1, e2⟩ :=
    outer_shape root [] (flows2Manifest flows).files st []
  simp only [List.nil_append] at e1
  have hcorr : ∀ p ∈ files₁, ∃ y ∈ (flows2Manifest flows).files,
      y.1 = p.1 ∧ eraseItemMT y.2 = eraseItemMT p.2 := by
    intro p hp
    have hmem : (p.1, eraseItemMT p.2)
        ∈ files₁.map (fun q => (q.1, eraseItemMT q.2)) :=
      List.mem_map.mpr ⟨p, hp, rfl⟩
    rw [e2] at hmem
    obtain ⟨y, hy, hgy⟩ := List.mem_map.mp hmem
    rw [Prod.mk.injEq] at hgy
    exact ⟨y, hy, hgy.1, hgy.2⟩
  have hfst : files₁.map (fun p => p.1)
      = (flows2Manifest flows).files.map (fun p => p.1) := by
    have h := congrArg (List.map (fun q : String × ManifestItem => q.1)) e2
    rw [List.map_map, List.map_map] at h
    exact h
  refine ⟨hcoh, ?_, ?_, ?_⟩
  · rw [e1, hfst]
    exact hkeysM
  · rw [e1]
    intro e he
    obtain ⟨y, hy, hk, herase⟩ := hcorr e he
    have hid : y.2.id = e.2.id := congrArg (fun it => it.id) herase
    obtain ⟨hy1, -, -, -⟩ := hinvM y hy
    rw [← hk, hy1]
    exact hid
  · rw [e1]
    intro e he
    obtain ⟨y, hy, hk, herase⟩ := hcorr e he
    obtain ⟨hy1, hynodup, hyfacts, fl, hflmem, hflid, hflroles⟩ := hinvM y hy
    have hid : y.2.id = e.2.id := congrArg (fun it => it.id) herase
    have hfilesE : y.2.files.map eraseMT = e.2.files.map eraseMT :=
      congrArg (fun it => it.files) herase
    refine ⟨fl, ?_, ?_⟩
    · have hfind := find_by_id flows hids fl hflmem
      rw [hflid, hid] at hfind
      exact hfind
    · intro mf hmf
      obtain ⟨mfO, hmfO, htype, hcont, -⟩ :=
        mem_eraseMT_transfer y.2.files e.2.files hfilesE.symm mf hmf
      rw [← htype, ← hcont]
      exact hflroles mfO hmfO

/-- C4: the round trip is exact for collections with unambiguous document
ids, on the traces the program can execute: each projected item's
container directory either already exists in the starting tree or is one
of the manifest's folder records, which the folder pass creates before
any file is written (`applyManifest` mkdirs only `sourcePath` and the
`manifest.folders` entries — never the `'default'` folder, so without
this folder-resolution hypothesis the real `writeFileSync` throws ENOENT
on a fresh tree for a document with no resolvable container, a trace the
total write model would otherwise silently accept). Under it, projecting
the flows with `flows2Manifest`, applying the manifest with
`applyManifest` (no previous manifest), and then running `manifest2Flows`
over any list of changed paths — in particular over every projected file
path — with the produced manifest, path→id map and filesystem, returns
the original collection unchanged, so every populated role field's
content is reproduced exactly; moreover every projected container
directory exists in the resulting filesystem (directories are never
removed by these passes, so it existed at each write). -/
theorem flows_roundtrip_exact (flows : List FlowItem)
    (hids : (flows.map (fun f => f.id)).Nodup) (root : String) (fs0 : FS)
    (changed : List String)
    (hdirs : ∀ e ∈ (flows2Manifest flows).files,
        fsExists fs0 (pathJoin2 root e.2.folderName) = true
        ∨ e.2.folderName ∈ (objValues (flows2Manifest flows).folders).map
            (fun f => f.folderName)) :
    (manifest2Flows flows
        (applyManifest (flows2Manifest flows) emptyManifest root fs0).2.1
        changed
        (applyManifest (flows2Manifest flows) emptyManifest root fs0).2.2.2
        (applyManifest (flows2Manifest flows) emptyManifest root fs0).1).1
      = flows
    ∧ ∀ e ∈ (flows2Manifest flows).files,
        fsExists (applyManifest (flows2Manifest flows) emptyManifest root
            fs0).1
          (pathJoin2 root e.2.folderName) = true := by
  simp only [applyManifest_char, emptyManifest, manifest2Flows]
  constructor
  · refine m2f_fold_noop root flows _ _ changed _ 0 ?_
    exact roundtrip_inv flows hids root _ rfl
  · intro e he
    apply outer_exists_mono
    rcases hdirs e he with hpre | hfol
    · apply folder_fold_exists_mono
      show fsExists (if fsExists fs0 root = true then fs0
        else fsMkdir fs0 root) (pathJoin2 root e.2.folderName) = true
      by_cases hr : fsExists fs0 root = true
      · rw [if_pos hr]
        exact hpre
      · rw [if_neg hr]
        exact fsExists_mono_mkdir _ _ _ hpre
    · obtain ⟨f, hf, hfn⟩ := List.mem_map.mp hfol
      rw [← hfn]
      exact folder_fold_all root _ _ f hf

/-- A one-document collection with a populated func role, for
instantiating the round-trip theorem. -/
def c4Doc : FlowItem :=
  { id := "n1", type := "function", label := "", name := "Fn", z := none, func := some "return msg;", format := none, ini := none, fin := none, info := none }

theorem flows_roundtrip_exact_witness :
    (([c4Doc].map (fun f => f.id)).Nodup
      ∧ ∀ e ∈ (flows2Manifest [c4Doc]).files,
          fsExists { files := [], dirs := ["root", "root/default"], clock := 0 } (pathJoin2 "root" e.2.folderName) = true
          ∨ e.2.folderName ∈ (objValues (flows2Manifest [c4Doc]).folders).map
              (fun f => f.folderName))
      ∧ ((manifest2Flows [c4Doc]
          (applyManifest (flows2Manifest [c4Doc]) emptyManifest "root" { files := [], dirs := ["root", "root/default"], clock := 0 }).2.1
          ["root/default/Fn.js"]
          (applyManifest (flows2Manifest [c4Doc]) emptyManifest "root" { files := [], dirs := ["root", "root/default"], clock := 0 }).2.2.2
          (applyManifest (flows2Manifest [c4Doc]) emptyManifest "root" { files := [], dirs := ["root", "root/default"], clock := 0 }).1).1
        = [c4Doc]
        ∧ ∀ e ∈ (flows2Manifest [c4Doc]).files,
            fsExists (applyManifest (flows2Manifest [c4Doc]) emptyManifest "root" { files := [], dirs := ["root", "root/default"], clock := 0 }).1
              (pathJoin2 "root" e.2.folderName) = true) :=
  ⟨⟨by decide, by decide⟩,
   flows_roundtrip_exact [c4Doc] (by decide) "root"
     { files := [], dirs := ["root", "root/default"], clock := 0 }
     ["root/default/Fn.js"] (by decide)⟩
